import Mathlib

/-!
# kvstore: an append-only log with an in-memory offset index

Shallow embedding of `src/src/kvstore.cpp` / `src/include/kvstore.h`.

* The persistence file is the list of its bytes.  A missing file is `none`.
* `store_` (a `tbb::concurrent_hash_map<K, StoreValue>`) is a finite map, represented by its
  lookup function.  All operations are modelled for one thread.
* `std::streamoff` is a signed 64-bit integer; file sizes are below `2^63`, so stream positions
  are modelled by unbounded integers, and every narrowing conversion the source performs
  (`int`, `uint32_t`, `size_t`) is written out explicitly.
* `std::hash` is not part of the repository: the two instances used by `make_checksum` are the
  fields of a `Hasher`, over which every definition is parameterised.
* The results of the system calls `write` and `fsync` are inputs (`Env`).
-/

namespace KVStore

/-! ## Data model -/

/-- Key type, `using K = uint32_t`. -/
abbrev K := UInt32

/-- Value type, `using V = std::string`: a sequence of chars. -/
abbrev V := List UInt8

/-- Length-field sentinel, `static const uint32_t kTombstone = ~0`. -/
def kTombstone : Nat := 4294967295

/-- Largest accepted value, `static const uint32_t kMaxValueSize = 4096`. -/
def kMaxValueSize : Nat := 4096

/-- Index entry, `struct StoreValue`. -/
structure StoreValue where
  /-- Field `std::streamoff offset`. -/
  offset : Int
  /-- Field `bool is_deleted`. -/
  is_deleted : Bool
deriving DecidableEq, Repr

/-- The index `Store_T = tbb::concurrent_hash_map<K, StoreValue>`, by its lookup function. -/
abbrev Store_T := K → Option StoreValue

/-- Index with no entry. -/
def Store_T.empty : Store_T := fun _ => none

/-- Effect of `store_.erase(key)`. -/
def Store_T.erase (m : Store_T) (key : K) : Store_T :=
  fun k => if k = key then none else m k

/-- Effect of `store_.insert(acc, key)` followed by assignments to every field of `acc->second`. -/
def Store_T.assign (m : Store_T) (key : K) (e : StoreValue) : Store_T :=
  fun k => if k = key then some e else m k

/-- The two `std::hash` instances used by `make_checksum`: `std::hash<uint32_t>` and
`std::hash<std::string>`, both returning a `size_t`. -/
structure Hasher where
  /-- Instance `std::hash<uint32_t>` (also `std::hash<K>`). -/
  hash_u32 : Nat → Nat
  /-- Instance `std::hash<std::string>`. -/
  hash_str : V → Nat

/-- Results of the system calls made by one `put`/`remove`. -/
structure Env where
  /-- Return value of `write(out_fd_, buf, n)` as a function of `n`: the number of bytes the
  kernel accepted, or `-1`. -/
  write_ret : Nat → Int
  /-- Return value of `fsync(out_fd_)`. -/
  fsync_ret : Int

/-- System in which every `write` is complete and every `fsync` succeeds. -/
def Env.ideal : Env := ⟨fun n => (n : Int), 0⟩

/-! ## Machine integers -/

/-- Conversion to `int` (32-bit two's complement). -/
def toInt32 (n : Int) : Int := (n + 2147483648) % 4294967296 - 2147483648

/-- Conversion to `uint32_t`. -/
def toUInt32 (n : Int) : Nat := (n % 4294967296).toNat

/-- Conversion to `size_t` (64-bit unsigned). -/
def toUInt64 (n : Int) : Nat := (n % 18446744073709551616).toNat

/-- Conversion to `std::streamoff` (64-bit two's complement). -/
def toInt64 (n : Int) : Int :=
  (n + 9223372036854775808) % 18446744073709551616 - 9223372036854775808

/-- The four bytes of a `uint32_t` in memory order (little-endian). -/
def le32 (n : Nat) : List UInt8 :=
  [UInt8.ofNat (n % 256), UInt8.ofNat (n / 256 % 256),
   UInt8.ofNat (n / 65536 % 256), UInt8.ofNat (n / 16777216 % 256)]

/-- The unsigned integer whose in-memory bytes (little-endian) are `bs`. -/
def fromLE : List UInt8 → Nat
  | [] => 0
  | b :: bs => b.toNat + 256 * fromLE bs

/-! ## `KVStore::Reader` -/

/-- Sequential reader over the input stream: the unread bytes, `file_.tellg()` and
`file_size_`. -/
structure Reader where
  /-- Bytes of the stream from the current position on. -/
  rest : List UInt8
  /-- Current position, `file_.tellg()`. -/
  pos : Nat
  /-- Field `file_size_`. -/
  file_size_ : Nat

/-- Constructor `Reader(std::ifstream& file)`: measures the file and rewinds. -/
def Reader.new (file : List UInt8) : Reader := ⟨file, 0, file.length⟩

/-- Method `hasNext`: `file_.tellg() < file_size_`. -/
def Reader.hasNext (r : Reader) : Bool := decide (r.pos < r.file_size_)

/-- Method `readInt`: `none` is the `false` return (fewer than four bytes were read). -/
def Reader.readInt (r : Reader) : Option (Nat × Reader) :=
  if 4 ≤ r.rest.length then
    some (fromLE (r.rest.take 4), { r with rest := r.rest.drop 4, pos := r.pos + 4 })
  else none

/-- Method `read` into a string that was resized to `n` chars: `none` is the `false` return. -/
def Reader.read (r : Reader) (n : Nat) : Option (V × Reader) :=
  if n ≤ r.rest.length then
    some (r.rest.take n, { r with rest := r.rest.drop n, pos := r.pos + n })
  else none

/-! ## Checksum -/

/-- Function `make_checksum`: the XOR of three `size_t` hashes, returned as `uint32_t`. -/
def make_checksum (H : Hasher) (key : K) (value_length : Nat) (value : Option V) : Nat :=
  (H.hash_u32 key.toNat ^^^ H.hash_u32 value_length ^^^
    (match value with
     | some v => H.hash_str v
     | none => 0)) % 4294967296

end KVStore

/-- The store: the bytes of `persistence_file_` and the index `store_`.  The descriptor
`out_fd_` is open on that same file with `O_APPEND`. -/
structure KVStore where
  /-- Contents of `persistence_file_`. -/
  file : List UInt8
  /-- The index. -/
  store_ : KVStore.Store_T

namespace KVStore

/-! ## Recovery -/

/-- The `while (reader.hasNext())` loop of `restore`.  Every iteration that does not `break`
consumes at least twelve bytes, so `fuel = file size` iterations are never exhausted
(`restoreLoop_fuel`).  The result is `(store_, valid_pos)`. -/
def restoreLoop (H : Hasher) : Nat → Reader → Store_T → Nat → Store_T × Nat
  | 0, _, store_, valid_pos => (store_, valid_pos)
  | fuel + 1, reader, store_, valid_pos =>
    if reader.hasNext = false then (store_, valid_pos) else
    match reader.readInt with
    | none => (store_, valid_pos)
    | some (persisted_checksum, r1) =>
    match r1.readInt with
    | none => (store_, valid_pos)
    | some (key_raw, r2) =>
    let key : K := UInt32.ofNat key_raw
    let value_offset : Int := (r2.pos : Int)
    match r2.readInt with
    | none => (store_, valid_pos)
    | some (value_length, r3) =>
    if value_length ≠ kTombstone then
      if value_length > kMaxValueSize then (store_, valid_pos) else
      match r3.read value_length with
      | none => (store_, valid_pos)
      | some (value, r4) =>
      if persisted_checksum ≠ make_checksum H key value_length (some value) then
        (store_, valid_pos)
      else
        restoreLoop H fuel r4
          (store_.assign key ⟨value_offset, decide (value_length = kTombstone)⟩) r4.pos
    else
      if persisted_checksum ≠ make_checksum H key kTombstone none then
        (store_, valid_pos)
      else
        restoreLoop H fuel r3
          ((store_.erase key).assign key ⟨value_offset, decide (value_length = kTombstone)⟩)
          r3.pos

/-- The statement `std::ofstream(persistence_file_, binary | out | in).seekp(valid_pos)`:
the file is opened for update without `trunc`, the put position of the temporary stream
is moved, and the stream is closed.  No byte of the file changes. -/
def ofstream_seekp (file : List UInt8) (_valid_pos : Nat) : List UInt8 := file

/-- Method `KVStore::restore` on the file found on disk (`none`: no such file).  Returns the
store and the final `valid_pos`. -/
def restore (H : Hasher) (disk : Option (List UInt8)) : KVStore × Nat :=
  match disk with
  | none =>
    -- the loop is skipped, the `ofstream` fails to open, `open(O_CREAT)` creates the file
    ({ file := [], store_ := Store_T.empty }, 0)
  | some file =>
    let r := restoreLoop H file.length (Reader.new file) Store_T.empty 0
    ({ file := ofstream_seekp file r.2, store_ := r.1 }, r.2)

/-- Constructor `KVStore::KVStore(persistence_file)`. -/
def create (H : Hasher) (disk : Option (List UInt8)) : KVStore := (restore H disk).1

/-! ## Log writer -/

/-- Bytes that `appendRecord` assembles in `outstream`. -/
def recordBytes (checksum : Nat) (key : K) (value : Option V) : List UInt8 :=
  le32 checksum ++ le32 key.toNat ++
    (match value with
     | none => le32 kTombstone
     | some v =>
       let value_size := v.length % 4294967296
       le32 value_size ++ v.take value_size)

/-- Method `KVStore::appendRecord`.  `kv_offset` and `res` are `int`s; the returned
`kv_offset + sizeof(uint32_t) + sizeof(K)` is computed in `size_t` and converted to
`std::streamoff`.  A short write throws after the accepted bytes reached the file. -/
def appendRecord (env : Env) (s : KVStore) (checksum : Nat) (key : K) (value : Option V) :
    Except String Int × KVStore :=
  let outstream := recordBytes checksum key value
  let kv_offset : Int := toInt32 (s.file.length : Int)
  let written : Int := env.write_ret outstream.length
  let res : Int := toInt32 written
  let s1 : KVStore := { s with file := s.file ++ outstream.take written.toNat }
  if toUInt64 res ≠ outstream.length then
    (.error "Failed to write to persistence file, must fail", s1)
  else
    (.ok (toInt64 ((toUInt64 kv_offset + 4 + 4 : Nat) % 18446744073709551616 : Nat)), s1)

/-- Method `KVStore::commitOffset` without `GROUP_COMMIT`: `fsync(out_fd_);`, whose return
value is discarded. -/
def commitOffset (_env : Env) (_offset : Int) : Unit := ()

/-- Method `KVStore::getValueFromOffset`.  `junk` is the indeterminate initial content of the
local `value_length`; a short read of the length leaves the stream failed, so the second read
stores nothing and the resized string keeps its zero chars. -/
def getValueFromOffset (junk : Nat) (file : List UInt8) (offset : Int) : Option V :=
  let avail : List UInt8 := if offset < 0 then [] else file.drop offset.toNat
  let got := avail.take 4
  let value_length := fromLE (got ++ (le32 junk).drop got.length)
  if value_length = kTombstone then none
  else
    let bytes := if got.length = 4 then (avail.drop 4).take value_length else []
    some (bytes ++ List.replicate (value_length - bytes.length) 0)

/-! ## Store operations -/

/-- The accessor block of `doPut`: the index update.  An existing entry only has its `offset`
raised when the new one is greater; a missing entry is inserted with both fields set. -/
def doPutIndex (store_ : Store_T) (key : K) (value_offset : Int) (value : Option V) : Store_T :=
  match store_ key with
  | some e =>
    if e.offset < value_offset then store_.assign key { e with offset := value_offset }
    else store_
  | none => store_.assign key ⟨value_offset, value.isNone⟩

/-- Method `KVStore::doPut`. -/
def doPut (H : Hasher) (env : Env) (s : KVStore) (key : K) (value : Option V) :
    Except String Unit × KVStore :=
  let value_size : Nat :=
    match value with
    | some v => v.length % 4294967296
    | none => kTombstone
  let checksum := make_checksum H key value_size value
  match appendRecord env s checksum key value with
  | (.error e, s1) => (.error e, s1)
  | (.ok value_offset, s1) =>
    let store_ := doPutIndex s1.store_ key value_offset value
    let _ := commitOffset env value_offset
    (.ok (), { s1 with store_ := store_ })

/-- Method `KVStore::put`. -/
def put (H : Hasher) (env : Env) (s : KVStore) (key : K) (value : V) :
    Except String Unit × KVStore :=
  if value.length > kMaxValueSize then
    (.error "Value size exceeds maximum allowed", s)
  else doPut H env s key (some value)

/-- Method `KVStore::get`.  The local `val_offset` is a `uint32_t`. -/
def get (junk : Nat) (s : KVStore) (key : K) : Option V :=
  match s.store_ key with
  | none => none
  | some e =>
    if e.is_deleted then none
    else
      let val_offset : Nat := toUInt32 e.offset
      getValueFromOffset junk s.file (val_offset : Int)

/-- Method `KVStore::exists`. -/
def exists_ (s : KVStore) (key : K) : Bool :=
  match s.store_ key with
  | none => false
  | some e => !e.is_deleted

/-- Method `KVStore::remove`. -/
def remove (H : Hasher) (env : Env) (s : KVStore) (key : K) : Except String Unit × KVStore :=
  if exists_ s key then doPut H env s key none
  else (.ok (), s)

/-! ## Sequences of calls -/

/-- One call of the public mutating interface, with the system's behaviour during it. -/
inductive Call where
  | put (env : Env) (key : K) (value : V)
  | remove (env : Env) (key : K)

/-- State after one call (whether it returned or threw). -/
def step (H : Hasher) (s : KVStore) : Call → KVStore
  | .put env key value => (put H env s key value).2
  | .remove env key => (remove H env s key).2

/-- State after a sequence of calls. -/
def run (H : Hasher) (s : KVStore) (calls : List Call) : KVStore :=
  calls.foldl (step H) s

/-! ## Records and replay, as the specification describes them -/

/-- A log record as `put` (`value = some v`) or `remove` (`value = none`) produces it. -/
structure Rec where
  /-- The key. -/
  key : K
  /-- The value, `none` for a tombstone. -/
  value : Option V

/-- Content of the record's length field. -/
def Rec.lengthField (r : Rec) : Nat :=
  match r.value with
  | some v => v.length % 4294967296
  | none => kTombstone

/-- A record `put`/`remove` can write: the value has at most `kMaxValueSize` bytes. -/
def Rec.wf (r : Rec) : Prop :=
  match r.value with
  | some v => v.length ≤ kMaxValueSize
  | none => True

instance (r : Rec) : Decidable r.wf :=
  match r with
  | ⟨_, some v⟩ => inferInstanceAs (Decidable (v.length ≤ kMaxValueSize))
  | ⟨_, none⟩ => isTrue trivial

/-- The bytes `doPut` hands to the log for this record. -/
def Rec.bytes (H : Hasher) (r : Rec) : List UInt8 :=
  recordBytes (make_checksum H r.key r.lengthField r.value) r.key r.value

/-- On-disk size of a record by the format table of the specification: three 4-byte fields
and the value bytes, which a tombstone omits. -/
def Rec.size (r : Rec) : Nat :=
  match r.value with
  | some v => 12 + v.length
  | none => 12

/-- A log: records back to back. -/
def serialize (H : Hasher) (rs : List Rec) : List UInt8 :=
  (rs.map (Rec.bytes H)).flatten

/-- Replaying records in file order from byte position `pos`: each record assigns its key the
entry (value offset, tombstone?) unconditionally. -/
def replayFrom : Nat → Store_T → List Rec → Store_T
  | _, m, [] => m
  | pos, m, r :: rs =>
    replayFrom (pos + r.size) (m.assign r.key ⟨(pos : Int) + 8, r.value.isNone⟩) rs

/-- Replay of a whole log into an empty index. -/
def replay (rs : List Rec) : Store_T := replayFrom 0 Store_T.empty rs

/-- The records of a log that lie entirely within its first `n` bytes. -/
def recordsWithin : Nat → List Rec → List Rec
  | _, [] => []
  | n, r :: rs => if r.size ≤ n then r :: recordsWithin (n - r.size) rs else []

/-- A byte string that does not begin with a well-formed record: fewer than 12 header bytes,
a length field in `4097..0xFFFFFFFE`, fewer value bytes than the length field announces, or a
stored checksum different from the recomputed one. -/
def badStart (H : Hasher) (b : List UInt8) : Bool :=
  let checksum := fromLE (b.take 4)
  let key : K := UInt32.ofNat (fromLE ((b.drop 4).take 4))
  let len := fromLE ((b.drop 8).take 4)
  decide (b.length < 12) ||
  (decide (kMaxValueSize < len) && decide (len < kTombstone)) ||
  (decide (len ≤ kMaxValueSize) && decide (b.length < 12 + len)) ||
  (decide (len ≤ kMaxValueSize) &&
    decide (checksum ≠ make_checksum H key len (some ((b.drop 12).take len)))) ||
  (decide (len = kTombstone) && decide (checksum ≠ make_checksum H key kTombstone none))

/-- Hasher used to evaluate the model on concrete inputs: the identity on integers (as in
libstdc++) and a polynomial hash on strings. -/
def demoHasher : Hasher :=
  ⟨fun n => n, fun v => v.foldl (fun h b => (h * 31 + b.toNat) % 18446744073709551616) 7⟩

/-- A possible behaviour of `write(2)`: the result is `-1` or a count of at most `n` bytes. -/
def Env.wf (env : Env) : Prop := ∀ n : Nat, -1 ≤ env.write_ret n ∧ env.write_ret n ≤ (n : Int)

/-- The system's behaviour during a call. -/
def Call.env : Call → Env
  | .put env _ _ => env
  | .remove env _ => env

/-- What a call returns in state `s`: normally, or the exception it throws. -/
def Call.result (H : Hasher) (s : KVStore) : Call → Except String Unit
  | .put env key value => (KVStore.put H env s key value).1
  | .remove env key => (KVStore.remove H env s key).1

/-- Every call of the sequence returns normally. -/
def allOk (H : Hasher) : KVStore → List Call → Prop
  | _, [] => True
  | s, c :: calls => c.result H s = Except.ok () ∧ allOk H (step H s c) calls

/-- `doPut`'s index update applied for one key, once per (value offset, value) pair, in list
order. -/
def applyUpdates (m : Store_T) (key : K) (ups : List (Int × Option V)) : Store_T :=
  ups.foldl (fun acc u => doPutIndex acc key u.1 u.2) m

/-- One step of the reference map of the specification: `put(k, v)` binds `k` to `v`,
`remove(k)` erases `k`. -/
def refStep (m : K → Option V) : Call → K → Option V
  | .put _ key value => fun k => if k = key then some value else m k
  | .remove _ key => fun k => if k = key then none else m k

/-- The reference map after a sequence of calls, starting empty. -/
def refModel (calls : List Call) : K → Option V :=
  calls.foldl refStep (fun _ => none)

/-! ## Index invariant -/

/-- Entry `e` of key `k` points at a record of `k` in `file`: a well-formed record with key `k`
starts eight bytes before `e.offset`. -/
def PointsAt (H : Hasher) (file : List UInt8) (k : K) (e : StoreValue) : Prop :=
  ∃ (pre post : List UInt8) (r : Rec),
    r.wf ∧ r.key = k ∧ file = pre ++ (r.bytes H ++ post) ∧ e.offset = (pre.length : Int) + 8

/-- Every index entry points at a record of its key in the file. -/
def IndexInFile (H : Hasher) (s : KVStore) : Prop :=
  ∀ (k : K) (e : StoreValue), s.store_ k = some e → PointsAt H s.file k e

/-- The store agrees with a reference map `ref`: a key without entry is unbound, and the entry
of any other key is live and points at the record of the key's current binding (a tombstone
when the key is unbound). -/
def Refines (H : Hasher) (s : KVStore) (ref : K → Option V) : Prop :=
  (∀ k, s.store_ k = none → ref k = none) ∧
  (∀ k e, s.store_ k = some e →
    e.is_deleted = false ∧
    ∃ pre post : List UInt8, (Rec.mk k (ref k)).wf ∧
      s.file = pre ++ (Rec.bytes H ⟨k, ref k⟩ ++ post) ∧ e.offset = (pre.length : Int) + 8)

/-- The key a call operates on. -/
def Call.key : Call → K
  | .put _ key _ => key
  | .remove _ key => key

/-- An event in the life of a log file: a call on the open store, or closing the store and
constructing a new one on the file. -/
inductive Event where
  | call (c : Call)
  | reopen

/-- State after an event. -/
def Event.apply (H : Hasher) (s : KVStore) : Event → KVStore
  | .call c => step H s c
  | .reopen => create H (some s.file)

/-- State after a sequence of events. -/
def life (H : Hasher) (s : KVStore) (events : List Event) : KVStore :=
  events.foldl (Event.apply H) s

/-- Every call among the events meets a well-behaved `write(2)` and returns normally. -/
def lifeOk (H : Hasher) : KVStore → List Event → Prop
  | _, [] => True
  | s, .call c :: events =>
    c.env.wf ∧ c.result H s = Except.ok () ∧ lifeOk H (step H s c) events
  | s, .reopen :: events => lifeOk H (create H (some s.file)) events

/-- Every call among the events operates on a key satisfying `P`. -/
def keysSatisfy (P : K → Prop) : List Event → Prop
  | [] => True
  | .call c :: events => P c.key ∧ keysSatisfy P events
  | .reopen :: events => keysSatisfy P events

/-! ## Concrete inputs -/

/-- A fresh store on a missing file, after `put(1, "a")` and `remove(1)`. -/
def removedInSession : KVStore :=
  run demoHasher (create demoHasher none) [.put .ideal 1 [97], .remove .ideal 1]

/-- A store constructed on the log that `removedInSession` left: the latest record of key 1
is a tombstone. -/
def reopenedOnTombstone : KVStore := create demoHasher (some removedInSession.file)

/-- Seven bytes that are not a record. -/
def tornTail : List UInt8 := [1, 2, 3, 4, 5, 6, 7]

/-- The log of a clean session (`put(1, "a")`, `remove(1)`) followed by a torn tail. -/
def tornLog : List UInt8 := removedInSession.file ++ tornTail

/-- A value of 4084 chars: its record occupies exactly 4096 bytes. -/
def bigValue : V := List.replicate 4084 97

/-- The record of `put(0, bigValue)`. -/
def bigRec : Rec := ⟨0, some bigValue⟩

/-- A fresh store on a missing file after `n` calls `put(0, bigValue)`. -/
def afterBigPuts (n : Nat) : KVStore :=
  run demoHasher (create demoHasher none) (List.replicate n (.put .ideal 0 bigValue))

/-- A session of `n` calls `put(0, bigValue)` followed by `remove(0)`. -/
def bigPutsThenRemove (n : Nat) : List Call :=
  List.replicate n (.put .ideal 0 bigValue) ++ [.remove .ideal 0]

end KVStore

namespace KVStore

/-! ## Machine-integer and byte lemmas -/

theorem toNat_ofNat_u8 (n : Nat) : (UInt8.ofNat n).toNat = n % 256 := by
  simp [UInt8.ofNat, UInt8.toNat]

theorem toNat_ofNat_u32 (n : Nat) : (UInt32.ofNat n).toNat = n % 4294967296 := by
  simp [UInt32.ofNat, UInt32.toNat]

theorem ofNat_toNat_u32 (k : UInt32) : UInt32.ofNat k.toNat = k := by
  apply UInt32.ext
  have h := toNat_ofNat_u32 k.toNat
  have := k.toNat_lt
  omega

@[simp] theorem le32_length (n : Nat) : (le32 n).length = 4 := rfl

theorem fromLE_le32 (n : Nat) : fromLE (le32 n) = n % 4294967296 := by
  simp only [le32, fromLE, toNat_ofNat_u8]
  omega

theorem fromLE_le32_of_lt {n : Nat} (h : n < 4294967296) : fromLE (le32 n) = n := by
  rw [fromLE_le32]; omega

theorem make_checksum_lt (H : Hasher) (key : K) (len : Nat) (value : Option V) :
    make_checksum H key len value < 4294967296 := by
  unfold make_checksum; omega

theorem toInt32_of_lt {n : Nat} (h : n < 2147483648) : toInt32 (n : Int) = n := by
  unfold toInt32; omega

theorem offset_conv (kv : Int) (h1 : -2147483648 ≤ kv) (h2 : kv < 2147483648) :
    toInt64 (((toUInt64 kv + 4 + 4 : Nat) % 18446744073709551616 : Nat) : Int) = kv + 8 := by
  unfold toInt64 toUInt64
  omega

theorem toInt32_range (n : Int) : -2147483648 ≤ toInt32 n ∧ toInt32 n < 2147483648 := by
  unfold toInt32; omega

end KVStore

namespace KVStore

/-! ## Reading what the writer wrote -/

theorem readInt_le32 (n : Nat) (rest : List UInt8) (p fs : Nat) :
    Reader.readInt ⟨le32 n ++ rest, p, fs⟩ = some (n % 4294967296, ⟨rest, p + 4, fs⟩) := by
  have h1 : (le32 n ++ rest).take 4 = le32 n := List.take_left' (le32_length n)
  have h2 : (le32 n ++ rest).drop 4 = rest := List.drop_left' (le32_length n)
  simp [Reader.readInt, h1, h2, fromLE_le32]

theorem read_append (v rest : List UInt8) (p fs : Nat) :
    Reader.read ⟨v ++ rest, p, fs⟩ v.length = some (v, ⟨rest, p + v.length, fs⟩) := by
  simp [Reader.read]

theorem assign_erase (m : Store_T) (key : K) (e : StoreValue) :
    (m.erase key).assign key e = m.assign key e := by
  funext k
  simp only [Store_T.assign, Store_T.erase]
  split <;> rfl

theorem Rec.bytes_length (H : Hasher) (r : Rec) (hwf : r.wf) : (r.bytes H).length = r.size := by
  cases r with
  | mk key value =>
    cases value with
    | none => simp [Rec.bytes, recordBytes, Rec.size]
    | some v =>
      have hv : v.length ≤ 4096 := hwf
      have : v.length % 4294967296 = v.length := by omega
      simp [Rec.bytes, recordBytes, Rec.size, this]
      omega

theorem restoreLoop_record (H : Hasher) (r : Rec) (hwf : r.wf) (fuel : Nat)
    (rest : List UInt8) (p fs : Nat) (m : Store_T) (vp : Nat) (hp : p < fs) :
    restoreLoop H (fuel + 1) ⟨r.bytes H ++ rest, p, fs⟩ m vp
      = restoreLoop H fuel ⟨rest, p + r.size, fs⟩
          (m.assign r.key ⟨(p : Int) + 8, r.value.isNone⟩) (p + r.size) := by
  cases r with
  | mk key value =>
    have hk : key.toNat % 4294967296 = key.toNat := by
      have := key.toNat_lt; omega
    cases value with
    | none =>
      have hc : make_checksum H key kTombstone none % 4294967296
          = make_checksum H key kTombstone none :=
        Nat.mod_eq_of_lt (make_checksum_lt H key kTombstone none)
      have ht : kTombstone % 4294967296 = kTombstone := by decide
      simp only [Rec.bytes, recordBytes, Rec.lengthField, List.append_assoc, restoreLoop,
        Reader.hasNext, readInt_le32, hc, hk, ht, ofNat_toNat_u32, assign_erase]
      simp [hp, Rec.size, Nat.add_assoc]
    | some v =>
      have hv : v.length ≤ 4096 := hwf
      have hv' : v.length % 4294967296 = v.length := by omega
      have hc : make_checksum H key v.length (some v) % 4294967296
          = make_checksum H key v.length (some v) :=
        Nat.mod_eq_of_lt (make_checksum_lt H key v.length (some v))
      have hne : v.length ≠ kTombstone := by unfold kTombstone; omega
      have hle : ¬ v.length > kMaxValueSize := by unfold kMaxValueSize; omega
      simp only [Rec.bytes, recordBytes, Rec.lengthField, List.append_assoc, restoreLoop,
        Reader.hasNext, readInt_le32, hv', List.take_length, hc, hk, ofNat_toNat_u32,
        read_append]
      simp [hp, hne, hle, Rec.size, Nat.add_assoc]

theorem restoreLoop_badStart (H : Hasher) (b : List UInt8) (hb : badStart H b = true)
    (fuel p fs : Nat) (m : Store_T) (vp : Nat) :
    restoreLoop H fuel ⟨b, p, fs⟩ m vp = (m, vp) := by
  cases fuel with
  | zero => rfl
  | succ fuel =>
    by_cases hp : p < fs
    swap
    · simp [restoreLoop, Reader.hasNext, hp]
    by_cases h4 : 4 ≤ b.length
    swap
    · simp [restoreLoop, Reader.readInt, h4]
    by_cases h8 : 4 ≤ b.length - 4
    swap
    · simp [restoreLoop, Reader.readInt, h4, h8]
    by_cases h12 : 4 ≤ b.length - 8
    swap
    · simp [restoreLoop, Reader.readInt, h4, h8, h12]
    have hlen : ¬ b.length < 12 := by omega
    simp only [badStart, Bool.or_eq_true, Bool.and_eq_true, decide_eq_true_eq, hlen,
      false_or] at hb
    generalize hl : fromLE (List.take 4 (List.drop 8 b)) = len at hb
    by_cases ht : len = kTombstone
    · subst ht
      have : ¬ kTombstone ≤ kMaxValueSize := by decide
      have h2 : ¬ kTombstone < kTombstone := by decide
      simp only [this, h2, false_and, and_false, or_false, false_or, true_and] at hb
      simp [restoreLoop, Reader.hasNext, Reader.readInt, h4, h8, h12, hp, hl, hb]
    · by_cases hmax : len > kMaxValueSize
      · simp [restoreLoop, Reader.hasNext, Reader.readInt, h4, h8, h12, hp, hl, ht, hmax]
      · have hle : len ≤ kMaxValueSize := by omega
        have hnl : ¬ kMaxValueSize < len := by omega
        simp only [hnl, false_and, false_or, hle, true_and, ht, or_false] at hb
        by_cases hshort : len ≤ b.length - 12
        · have : ¬ b.length < 12 + len := by omega
          simp only [this, false_or] at hb
          simp [restoreLoop, Reader.hasNext, Reader.readInt, Reader.read, h4, h8, h12, hp, hl,
            ht, hmax, hnl, hshort, hb]
        · simp [restoreLoop, Reader.hasNext, Reader.readInt, Reader.read, h4, h8, h12, hp, hl,
            ht, hmax, hnl, hshort]

/-! ## Recovery of a log of records -/

theorem Rec.size_pos (r : Rec) : 12 ≤ r.size := by
  unfold Rec.size; cases r.value <;> simp

theorem serialize_cons (H : Hasher) (r : Rec) (rs : List Rec) :
    serialize H (r :: rs) = r.bytes H ++ serialize H rs := by
  simp [serialize]

theorem serialize_append (H : Hasher) (rs ts : List Rec) :
    serialize H (rs ++ ts) = serialize H rs ++ serialize H ts := by
  simp [serialize]

theorem length_le_serialize (H : Hasher) (rs : List Rec) (hwf : ∀ r ∈ rs, r.wf) :
    rs.length ≤ (serialize H rs).length := by
  induction rs with
  | nil => simp
  | cons r rs ih =>
    have h1 := Rec.bytes_length H r (hwf r (List.mem_cons_self r rs))
    have h2 := ih (fun x hx => hwf x (List.mem_cons_of_mem r hx))
    have h3 := r.size_pos
    simp only [serialize_cons, List.length_append, List.length_cons]
    omega

theorem restoreLoop_serialize (H : Hasher) (b : List UInt8) (hb : badStart H b = true)
    (rs : List Rec) (hwf : ∀ r ∈ rs, r.wf) :
    ∀ (fuel p fs : Nat) (m : Store_T), rs.length ≤ fuel →
      p + (serialize H rs ++ b).length = fs →
      restoreLoop H fuel ⟨serialize H rs ++ b, p, fs⟩ m p
        = (replayFrom p m rs, p + (serialize H rs).length) := by
  induction rs with
  | nil =>
    intro fuel p fs m _ _
    simpa [serialize, replayFrom] using restoreLoop_badStart H b hb fuel p fs m p
  | cons r rs ih =>
    intro fuel p fs m hfuel hfs
    have hr := hwf r (List.mem_cons_self r rs)
    have hlen := Rec.bytes_length H r hr
    have hsz := r.size_pos
    cases fuel with
    | zero => simp at hfuel
    | succ fuel =>
      simp only [serialize_cons, List.append_assoc, List.length_append] at hfs ⊢
      rw [restoreLoop_record H r hr fuel _ p fs m p (by omega)]
      rw [ih (fun x hx => hwf x (List.mem_cons_of_mem r hx)) fuel (p + r.size) fs _
        (by simpa using hfuel) (by simp only [List.length_append]; omega)]
      simp only [replayFrom, hlen, Nat.add_assoc]

theorem restore_log (H : Hasher) (rs : List Rec) (hwf : ∀ r ∈ rs, r.wf) (b : List UInt8)
    (hb : badStart H b = true) :
    restore H (some (serialize H rs ++ b))
      = ({ file := serialize H rs ++ b, store_ := replay rs }, (serialize H rs).length) := by
  have h := restoreLoop_serialize H b hb rs hwf (serialize H rs ++ b).length 0
    (serialize H rs ++ b).length Store_T.empty
    (by have := length_le_serialize H rs hwf; simp only [List.length_append]; omega)
    (by simp)
  simp only [restore, Reader.new, ofstream_seekp, h, replay, Nat.zero_add]

theorem badStart_nil (H : Hasher) : badStart H [] = true := by
  simp [badStart]


theorem badStart_take_bytes (H : Hasher) (r : Rec) (hwf : r.wf) (n : Nat) (hn : n < r.size) :
    badStart H ((r.bytes H).take n) = true := by
  have hlen := Rec.bytes_length H r hwf
  by_cases h12 : n < 12
  · simp only [badStart, Bool.or_eq_true, Bool.and_eq_true, decide_eq_true_eq,
      List.length_take]
    left; left; left; left
    omega
  · cases r with
    | mk key value =>
      cases value with
      | none => simp [Rec.size] at hn; omega
      | some v =>
        have hv : v.length ≤ 4096 := hwf
        have hv' : v.length % 4294967296 = v.length := by omega
        simp only [Rec.size] at hn hlen
        have hhead : List.take 4 (List.drop 8 (List.take n (Rec.bytes H ⟨key, some v⟩)))
            = le32 v.length := by
          rw [List.drop_take, List.take_take]
          have : min 4 (n - 8) = 4 := by omega
          rw [this]
          simp only [Rec.bytes, recordBytes, Rec.lengthField, hv', List.append_assoc]
          rw [← List.append_assoc, List.drop_left' (by simp), List.take_left' (by simp)]
        simp only [badStart, Bool.or_eq_true, Bool.and_eq_true, decide_eq_true_eq,
          List.length_take, hhead, fromLE_le32, hv', hlen, kMaxValueSize]
        left; left; right
        omega

theorem take_serialize (H : Hasher) (rs : List Rec) (hwf : ∀ r ∈ rs, r.wf) :
    ∀ n : Nat, ∃ b : List UInt8, badStart H b = true ∧
      (serialize H rs).take n = serialize H (recordsWithin n rs) ++ b := by
  induction rs with
  | nil =>
    intro n
    exact ⟨[], badStart_nil H, by simp [serialize, recordsWithin]⟩
  | cons r rs ih =>
    intro n
    have hr := hwf r (List.mem_cons_self r rs)
    have hlen := Rec.bytes_length H r hr
    by_cases hfit : r.size ≤ n
    · obtain ⟨b, hb, hEq⟩ := ih (fun x hx => hwf x (List.mem_cons_of_mem r hx)) (n - r.size)
      refine ⟨b, hb, ?_⟩
      simp only [recordsWithin, hfit, if_true, serialize_cons, List.append_assoc]
      rw [List.take_append_eq_append_take, hlen, hEq, List.take_of_length_le (by omega)]
    · refine ⟨(r.bytes H).take n, badStart_take_bytes H r hr n (by omega), ?_⟩
      simp only [recordsWithin, hfit, if_false, serialize_cons]
      rw [List.take_append_of_le_length (by omega)]
      simp [serialize]

theorem recordsWithin_initial (n : Nat) (rs : List Rec) : recordsWithin n rs <+: rs := by
  induction rs generalizing n with
  | nil => simp [recordsWithin]
  | cons r rs ih =>
    simp only [recordsWithin]
    split
    · exact (List.prefix_cons_inj r).mpr (ih _)
    · exact List.nil_prefix

theorem recordsWithin_wf (n : Nat) (rs : List Rec) (hwf : ∀ r ∈ rs, r.wf) :
    ∀ r ∈ recordsWithin n rs, r.wf :=
  fun r hr => hwf r ((recordsWithin_initial n rs).subset hr)

end KVStore

namespace KVStore

theorem replayFrom_of_not_mem (k : K) (rs : List Rec) (hk : ∀ r ∈ rs, r.key ≠ k) :
    ∀ (p : Nat) (m : Store_T), replayFrom p m rs k = m k := by
  induction rs with
  | nil => intro p m; rfl
  | cons r rs ih =>
    intro p m
    have h1 : r.key ≠ k := hk r (List.mem_cons_self r rs)
    simp only [replayFrom]
    rw [ih (fun x hx => hk x (List.mem_cons_of_mem r hx))]
    simp [Store_T.assign, Ne.symm h1]

/-- C7. Recovery on the first `n` bytes of a log of well-formed records yields exactly the
replay of the records that lie entirely within those bytes, which form a prefix of the record
sequence; `valid_pos` is the end of the last of them, so a partial last record contributes
nothing. -/
theorem restore_truncated_log (H : Hasher) (rs : List Rec) (hwf : ∀ r ∈ rs, r.wf) (n : Nat)
    (hn : n ≤ (serialize H rs).length) :
    (restore H (some ((serialize H rs).take n))).1.store_ = replay (recordsWithin n rs) ∧
    (restore H (some ((serialize H rs).take n))).2
      = (serialize H (recordsWithin n rs)).length ∧
    (serialize H (recordsWithin n rs)).length ≤ n ∧
    recordsWithin n rs <+: rs := by
  obtain ⟨b, hb, hEq⟩ := take_serialize H rs hwf n
  have hlen : ((serialize H rs).take n).length = n := by
    rw [List.length_take]; omega
  rw [hEq] at hlen
  rw [hEq, restore_log H _ (recordsWithin_wf n rs hwf) b hb]
  refine ⟨rfl, rfl, ?_, recordsWithin_initial n rs⟩
  rw [List.length_append] at hlen
  omega

/-- Instance of C7: a log of three records cut inside the third. -/
theorem restore_truncated_log_witness :
    (∀ r ∈ [(⟨1, some [97]⟩ : Rec), ⟨1, none⟩, ⟨2, some [98, 99]⟩], r.wf) ∧
    30 ≤ (serialize demoHasher [⟨1, some [97]⟩, ⟨1, none⟩, ⟨2, some [98, 99]⟩]).length ∧
    (restore demoHasher (some ((serialize demoHasher
        [⟨1, some [97]⟩, ⟨1, none⟩, ⟨2, some [98, 99]⟩]).take 30))).1.store_
      = replay (recordsWithin 30 [⟨1, some [97]⟩, ⟨1, none⟩, ⟨2, some [98, 99]⟩]) ∧
    (restore demoHasher (some ((serialize demoHasher
        [⟨1, some [97]⟩, ⟨1, none⟩, ⟨2, some [98, 99]⟩]).take 30))).2 = 25 :=
  have h := restore_truncated_log demoHasher [⟨1, some [97]⟩, ⟨1, none⟩, ⟨2, some [98, 99]⟩]
    (by decide) 30 (by decide)
  ⟨by decide, by decide, h.1, by decide⟩

/-- C8. Replay stops at the first bad record: recovery on well-formed records followed by bytes
that do not begin with a well-formed record yields exactly the replay of the records, with
`valid_pos` at their end; a key with no record before the bad bytes is absent. -/
theorem restore_stops_at_bad_record (H : Hasher) (rs : List Rec) (hwf : ∀ r ∈ rs, r.wf)
    (b : List UInt8) (hb : badStart H b = true) :
    (restore H (some (serialize H rs ++ b))).1.store_ = replay rs ∧
    (restore H (some (serialize H rs ++ b))).2 = (serialize H rs).length ∧
    ∀ (junk : Nat) (k : K), (∀ r ∈ rs, r.key ≠ k) →
      get junk (create H (some (serialize H rs ++ b))) k = none := by
  rw [restore_log H rs hwf b hb]
  refine ⟨rfl, rfl, ?_⟩
  intro junk k hk
  have : replay rs k = none := replayFrom_of_not_mem k rs hk 0 Store_T.empty
  simp [get, create, restore_log H rs hwf b hb, this]

/-- Instance of C8: one good record, then a record with a flipped value byte, then a record that is
valid by itself. -/
theorem restore_stops_at_bad_record_witness :
    (∀ r ∈ [(⟨1, some [97]⟩ : Rec)], r.wf) ∧
    badStart demoHasher
      ((Rec.bytes demoHasher ⟨2, some [98]⟩).set 12 99 ++ Rec.bytes demoHasher ⟨3, some [100]⟩)
      = true ∧
    (restore demoHasher (some (serialize demoHasher [⟨1, some [97]⟩] ++
      ((Rec.bytes demoHasher ⟨2, some [98]⟩).set 12 99
        ++ Rec.bytes demoHasher ⟨3, some [100]⟩)))).2 = 13 ∧
    get 0 (create demoHasher (some (serialize demoHasher [⟨1, some [97]⟩] ++
      ((Rec.bytes demoHasher ⟨2, some [98]⟩).set 12 99
        ++ Rec.bytes demoHasher ⟨3, some [100]⟩)))) 3 = none :=
  have h := restore_stops_at_bad_record demoHasher [⟨1, some [97]⟩] (by decide)
    ((Rec.bytes demoHasher ⟨2, some [98]⟩).set 12 99 ++ Rec.bytes demoHasher ⟨3, some [100]⟩)
    (by decide)
  ⟨by decide, by decide, h.2.1, h.2.2 0 3 (by decide)⟩

end KVStore

namespace KVStore

theorem appendRecord_ok (env : Env) (s : KVStore) (c : Nat) (key : K) (value : Option V)
    (hw : env.write_ret (recordBytes c key value).length
      = ((recordBytes c key value).length : Int))
    (hlen : (recordBytes c key value).length < 2147483648) :
    appendRecord env s c key value
      = (.ok (toInt32 (s.file.length : Int) + 8),
         { s with file := s.file ++ recordBytes c key value }) := by
  unfold appendRecord
  generalize recordBytes c key value = rb at hw hlen
  have h32 : toInt32 (rb.length : Int) = rb.length := toInt32_of_lt hlen
  have h64 : toUInt64 (rb.length : Int) = rb.length := by unfold toUInt64; omega
  have hr := toInt32_range (s.file.length : Int)
  simp only [hw, h32, h64, ne_eq, not_true_eq_false, if_false, Int.toNat_ofNat,
    List.take_length, offset_conv _ hr.1 hr.2]

theorem recordBytes_length_some (c : Nat) (key : K) (v : V) (hv : v.length ≤ 4096) :
    (recordBytes c key (some v)).length = 12 + v.length := by
  have hv' : v.length % 4294967296 = v.length := by omega
  simp [recordBytes, hv']; omega

theorem recordBytes_length_none (c : Nat) (key : K) :
    (recordBytes c key none).length = 12 := by
  simp [recordBytes]

theorem appendRecord_result (env : Env) (s : KVStore) (c : Nat) (key : K) (value : Option V) :
    (∃ o, (appendRecord env s c key value).1 = Except.ok o) ∨
    (appendRecord env s c key value).1
      = Except.error "Failed to write to persistence file, must fail" := by
  unfold appendRecord
  simp only
  split
  · right; rfl
  · left; exact ⟨_, rfl⟩

theorem doPut_result (H : Hasher) (env : Env) (s : KVStore) (key : K) (value : Option V) :
    (doPut H env s key value).1 = Except.ok () ∨
    (doPut H env s key value).1 = Except.error "Failed to write to persistence file, must fail" := by
  unfold doPut
  simp only
  have h := appendRecord_result env s (make_checksum H key (match value with
    | some v => v.length % 4294967296
    | none => kTombstone) value) key value
  revert h
  generalize appendRecord env s _ key value = r
  intro h
  rcases r with ⟨r1, s1⟩
  cases r1 with
  | error e =>
    right
    rcases h with ⟨o, ho⟩ | h
    · simp at ho
    · simpa using h
  | ok o => left; rfl

/-- C4. `put` throws the value-too-large error exactly when the value has more than 4096 chars;
when it does, the file and the index are unchanged; and a value of at most 4096 chars whose
record the kernel accepts in full is stored without error. -/
theorem put_value_too_large_iff (H : Hasher) (env : Env) (s : KVStore) (key : K) (value : V) :
    ((put H env s key value).1 = Except.error "Value size exceeds maximum allowed"
        ↔ value.length > 4096) ∧
    ((put H env s key value).1 = Except.error "Value size exceeds maximum allowed"
        → (put H env s key value).2 = s) ∧
    (value.length ≤ 4096 → env.write_ret (12 + value.length) = ((12 + value.length : Nat) : Int)
        → (put H env s key value).1 = Except.ok ()) := by
  by_cases h : value.length > 4096
  · have hp : put H env s key value = (.error "Value size exceeds maximum allowed", s) := by
      simp [put, kMaxValueSize, h]
    rw [hp]
    exact ⟨⟨fun _ => h, fun _ => rfl⟩, fun _ => rfl, fun h' => by omega⟩
  · have hp : put H env s key value = doPut H env s key (some value) := by
      simp [put, kMaxValueSize, h]
    rw [hp]
    have hne : (doPut H env s key (some value)).1
        ≠ Except.error "Value size exceeds maximum allowed" := by
      rcases doPut_result H env s key (some value) with h1 | h1 <;> rw [h1]
      · simp
      · simp only [ne_eq, Except.error.injEq]; decide
    refine ⟨⟨fun h' => absurd h' hne, fun h' => absurd h' h⟩, fun h' => absurd h' hne, ?_⟩
    intro hle hw
    have hlen := recordBytes_length_some
      (make_checksum H key (value.length % 4294967296) (some value)) key value hle
    unfold doPut
    simp only
    rw [appendRecord_ok env s _ key (some value) (by rw [hlen]; exact hw) (by omega)]

end KVStore

namespace KVStore

/-! ## Successful calls -/

theorem Rec.size_lt (r : Rec) (hwf : r.wf) : r.size < 2147483648 := by
  cases r with
  | mk key value =>
    cases value with
    | none => simp [Rec.size]
    | some v =>
      have hv : v.length ≤ 4096 := hwf
      simp only [Rec.size]; omega

theorem doPut_ok (H : Hasher) (env : Env) (s : KVStore) (key : K) (value : Option V)
    (hwf : (Rec.mk key value).wf)
    (hw : env.write_ret (Rec.mk key value).size = (((Rec.mk key value).size : Nat) : Int)) :
    doPut H env s key value
      = (.ok (), { file := s.file ++ Rec.bytes H ⟨key, value⟩,
                   store_ := doPutIndex s.store_ key
                     (toInt32 (s.file.length : Int) + 8) value }) := by
  have hlen := Rec.bytes_length H ⟨key, value⟩ hwf
  have hlt := Rec.size_lt ⟨key, value⟩ hwf
  simp only [Rec.bytes, Rec.lengthField] at hlen
  unfold doPut
  simp only
  rw [appendRecord_ok env s _ key value (by rw [hlen]; exact hw) (by rw [hlen]; exact hlt)]
  simp only [Rec.bytes, Rec.lengthField]

theorem put_ok (H : Hasher) (env : Env) (s : KVStore) (key : K) (v : V)
    (hv : v.length ≤ 4096)
    (hw : env.write_ret (12 + v.length) = ((12 + v.length : Nat) : Int)) :
    put H env s key v
      = (.ok (), { file := s.file ++ Rec.bytes H ⟨key, some v⟩,
                   store_ := doPutIndex s.store_ key
                     (toInt32 (s.file.length : Int) + 8) (some v) }) := by
  have h : ¬ v.length > kMaxValueSize := by unfold kMaxValueSize; omega
  simp only [put, h, if_false]
  exact doPut_ok H env s key (some v) hv hw

theorem remove_ok (H : Hasher) (env : Env) (s : KVStore) (key : K)
    (hex : exists_ s key = true) (hw : env.write_ret 12 = 12) :
    remove H env s key
      = (.ok (), { file := s.file ++ Rec.bytes H ⟨key, none⟩,
                   store_ := doPutIndex s.store_ key
                     (toInt32 (s.file.length : Int) + 8) none }) := by
  simp only [remove, hex, if_true]
  exact doPut_ok H env s key none trivial hw

theorem remove_noop (H : Hasher) (env : Env) (s : KVStore) (key : K)
    (hex : exists_ s key = false) : remove H env s key = (.ok (), s) := by
  simp [remove, hex]

/-! ## Reading a record back -/

theorem le32_drop_four (n : Nat) : (le32 n).drop 4 = [] := rfl

theorem getValueFromOffset_value (junk : Nat) (H : Hasher) (pre post : List UInt8) (key : K)
    (v : V) (hv : v.length ≤ 4096) :
    getValueFromOffset junk (pre ++ (Rec.bytes H ⟨key, some v⟩ ++ post))
      ((pre.length + 8 : Nat) : Int) = some v := by
  have hv' : v.length % 4294967296 = v.length := by omega
  have hne : v.length ≠ kTombstone := by unfold kTombstone; omega
  have hneg : ¬ ((pre.length + 8 : Nat) : Int) < 0 := by omega
  have hdrop : List.drop (pre.length + 8) (pre ++ (Rec.bytes H ⟨key, some v⟩ ++ post))
      = le32 v.length ++ (v ++ post) := by
    rw [List.drop_append]
    simp only [Rec.bytes, recordBytes, Rec.lengthField, hv', List.take_length,
      List.append_assoc]
    rw [← List.append_assoc (le32 _) (le32 _), List.drop_left' (by simp)]
  unfold getValueFromOffset
  simp only [hneg, if_false, Int.toNat_ofNat, hdrop]
  rw [List.take_left' (le32_length _), List.drop_left' (le32_length _)]
  simp [fromLE_le32, hv', hne, le32_drop_four]

theorem getValueFromOffset_tombstone (junk : Nat) (H : Hasher) (pre post : List UInt8)
    (key : K) :
    getValueFromOffset junk (pre ++ (Rec.bytes H ⟨key, none⟩ ++ post))
      ((pre.length + 8 : Nat) : Int) = none := by
  have hneg : ¬ ((pre.length + 8 : Nat) : Int) < 0 := by omega
  have hdrop : List.drop (pre.length + 8) (pre ++ (Rec.bytes H ⟨key, none⟩ ++ post))
      = le32 kTombstone ++ post := by
    rw [List.drop_append]
    simp only [Rec.bytes, recordBytes, Rec.lengthField, List.append_assoc]
    rw [← List.append_assoc (le32 _) (le32 _), List.drop_left' (by simp)]
  unfold getValueFromOffset
  simp only [hneg, if_false, Int.toNat_ofNat, hdrop]
  rw [List.take_left' (le32_length _)]
  simp [fromLE_le32, kTombstone, le32_drop_four]

end KVStore

namespace KVStore

/-! ## Logs of two and four gibibytes -/

theorem bigValue_length : bigValue.length = 4084 := by
  unfold bigValue
  rw [List.length_replicate]

theorem bigRec_wf : bigRec.wf := by
  show bigValue.length ≤ 4096
  rw [bigValue_length]; omega

theorem bigRec_bytes_length (H : Hasher) : (bigRec.bytes H).length = 4096 := by
  rw [Rec.bytes_length H bigRec bigRec_wf]
  show 12 + bigValue.length = 4096
  rw [bigValue_length]

theorem serialize_replicate_bigRec_length (H : Hasher) (n : Nat) :
    (serialize H (List.replicate n bigRec)).length = n * 4096 := by
  induction n with
  | zero => simp [serialize]
  | succ n ih =>
    rw [List.replicate_succ, serialize_cons, List.length_append, ih, bigRec_bytes_length]
    omega

theorem afterBigPuts_succ (n : Nat) :
    afterBigPuts (n + 1) = (put demoHasher .ideal (afterBigPuts n) 0 bigValue).2 := by
  simp only [afterBigPuts, run, List.replicate_succ', List.foldl_append, List.foldl_cons,
    List.foldl_nil, step]

theorem put_ideal_bigValue (s : KVStore) :
    put demoHasher .ideal s 0 bigValue
      = (.ok (), { file := s.file ++ bigRec.bytes demoHasher,
                   store_ := doPutIndex s.store_ 0
                     (toInt32 (s.file.length : Int) + 8) (some bigValue) }) :=
  put_ok demoHasher .ideal s 0 bigValue (by rw [bigValue_length]; omega) rfl

theorem afterBigPuts_file (n : Nat) :
    (afterBigPuts n).file = serialize demoHasher (List.replicate n bigRec) := by
  induction n with
  | zero => rfl
  | succ n ih =>
    rw [afterBigPuts_succ, put_ideal_bigValue, List.replicate_succ', serialize_append, ← ih]
    simp [serialize]

theorem afterBigPuts_index (n : Nat) (hn : n < 524288) :
    (afterBigPuts (n + 1)).store_ 0 = some ⟨(n : Int) * 4096 + 8, false⟩ := by
  induction n with
  | zero =>
    have h0 : (afterBigPuts 0).store_ 0 = none := rfl
    have hf : (afterBigPuts 0).file = [] := rfl
    rw [afterBigPuts_succ, put_ideal_bigValue]
    simp only [doPutIndex, h0, hf, Store_T.assign]
    simp [toInt32]
  | succ n ih =>
    have h := ih (by omega)
    have hlen : (afterBigPuts (n + 1)).file.length = (n + 1) * 4096 := by
      rw [afterBigPuts_file, serialize_replicate_bigRec_length]
    have h32 : toInt32 (((n + 1) * 4096 : Nat) : Int) = (((n + 1) * 4096 : Nat) : Int) :=
      toInt32_of_lt (by omega)
    rw [afterBigPuts_succ, put_ideal_bigValue]
    simp only [doPutIndex, h, hlen, h32]
    have hlt : (n : Int) * 4096 + 8 < (((n + 1) * 4096 : Nat) : Int) + 8 := by
      push_cast; omega
    simp only [hlt, if_true, Store_T.assign]
    push_cast
    simp

end KVStore

namespace KVStore

theorem getValueFromOffset_last_bigRec (junk n : Nat) (post : List UInt8) :
    getValueFromOffset junk (serialize demoHasher (List.replicate (n + 1) bigRec) ++ post)
      ((n * 4096 + 8 : Nat) : Int) = some bigValue := by
  have h := getValueFromOffset_value junk demoHasher
    (serialize demoHasher (List.replicate n bigRec)) post 0 bigValue
    (by rw [bigValue_length]; omega)
  rw [serialize_replicate_bigRec_length] at h
  rw [List.replicate_succ', serialize_append, List.append_assoc]
  simpa [serialize, bigRec] using h

theorem remove_then_get_wrapped (N : Nat) (hN : N = 524288) :
    (afterBigPuts N).file.length = 2147483648 ∧
    (afterBigPuts N).store_ 0 = some ⟨2147479560, false⟩ ∧
    (remove demoHasher .ideal (afterBigPuts N) 0).1 = Except.ok () ∧
    (remove demoHasher .ideal (afterBigPuts N) 0).2.file
      = (afterBigPuts N).file ++ Rec.bytes demoHasher ⟨0, none⟩ ∧
    (remove demoHasher .ideal (afterBigPuts N) 0).2.store_ 0
      = some ⟨2147479560, false⟩ ∧
    get 0 (remove demoHasher .ideal (afterBigPuts N) 0).2 0 = some bigValue := by
  obtain ⟨n, rfl⟩ : ∃ n, N = n + 1 := ⟨N - 1, by omega⟩
  have hn : n = 524287 := by omega
  have hoff : (n : Int) * 4096 + 8 = 2147479560 := by omega
  have hidx : (afterBigPuts (n + 1)).store_ 0 = some ⟨2147479560, false⟩ := by
    rw [afterBigPuts_index n (by omega), hoff]
  have hfile := afterBigPuts_file (n + 1)
  have hlen : (afterBigPuts (n + 1)).file.length = 2147483648 := by
    rw [hfile, serialize_replicate_bigRec_length]; omega
  have hex : exists_ (afterBigPuts (n + 1)) 0 = true := by
    simp only [exists_, hidx, Bool.not_false]
  have hrem := remove_ok demoHasher .ideal (afterBigPuts (n + 1)) 0 hex rfl
  have h32 : toInt32 ((2147483648 : Nat) : Int) + 8 = -2147483640 := by
    simp [toInt32]
  have hstore : doPutIndex (afterBigPuts (n + 1)).store_ 0
      (toInt32 ((afterBigPuts (n + 1)).file.length : Int) + 8) none
      = (afterBigPuts (n + 1)).store_ := by
    simp only [doPutIndex, hidx, hlen, h32]
    simp
  rw [hrem, hstore]
  refine ⟨hlen, hidx, rfl, rfl, hidx, ?_⟩
  simp only [get, hidx]
  have hu : toUInt32 2147479560 = 2147479560 := by simp [toUInt32]
  have hpos : ((n * 4096 + 8 : Nat) : Int) = ((2147479560 : Nat) : Int) := by omega
  have h := getValueFromOffset_last_bigRec 0 n (Rec.bytes demoHasher ⟨0, none⟩)
  rw [hpos] at h
  rw [hfile]
  simpa [hu] using h

/-- C2 fails on the code once the log reaches 2 GiB. After 524288 calls `put(0, bigValue)` on a
fresh store the file has `2^31` bytes and key 0 is live at offset 2147479560. `remove(0)`
returns normally and appends its tombstone, but the `int kv_offset` wraps, the value offset
offered to the index is negative, the entry is not moved, and the `get(0)` that follows returns
the old value instead of absent. -/
theorem remove_then_get_on_2GiB_log :
    (afterBigPuts 524288).file.length = 2147483648 ∧
    (afterBigPuts 524288).store_ 0 = some ⟨2147479560, false⟩ ∧
    (remove demoHasher .ideal (afterBigPuts 524288) 0).1 = Except.ok () ∧
    (remove demoHasher .ideal (afterBigPuts 524288) 0).2.file
      = (afterBigPuts 524288).file ++ Rec.bytes demoHasher ⟨0, none⟩ ∧
    (remove demoHasher .ideal (afterBigPuts 524288) 0).2.store_ 0
      = some ⟨2147479560, false⟩ ∧
    get 0 (remove demoHasher .ideal (afterBigPuts 524288) 0).2 0 = some bigValue :=
  remove_then_get_wrapped 524288 rfl

end KVStore

namespace KVStore

theorem replayFrom_replicate_bigRec_then (r : Rec) (n : Nat) :
    ∀ (p : Nat) (m : Store_T),
      replayFrom p m (List.replicate n bigRec ++ [r]) r.key
        = some ⟨((p + n * 4096 : Nat) : Int) + 8, r.value.isNone⟩ := by
  induction n with
  | zero =>
    intro p m
    simp [replayFrom, Store_T.assign]
  | succ n ih =>
    intro p m
    have hsz : bigRec.size = 4096 := by
      show 12 + bigValue.length = 4096
      rw [bigValue_length]
    have harith : p + 4096 + n * 4096 = p + (n + 1) * 4096 := by omega
    rw [List.replicate_succ, List.cons_append, replayFrom, ih, hsz, harith]

theorem get_after_reopen_wrapped (N : Nat) (hN : N = 1048576) :
    (put demoHasher .ideal (afterBigPuts N) 1 [98]).1 = Except.ok () ∧
    (put demoHasher .ideal (afterBigPuts N) 1 [98]).2.file.length = 4294967309 ∧
    (restore demoHasher (some (put demoHasher .ideal (afterBigPuts N) 1 [98]).2.file)).2
      = 4294967309 ∧
    (create demoHasher (some (put demoHasher .ideal (afterBigPuts N) 1 [98]).2.file)).store_ 1
      = some ⟨4294967304, false⟩ ∧
    get 0 (create demoHasher (some (put demoHasher .ideal (afterBigPuts N) 1 [98]).2.file)) 1
      = some bigValue ∧
    bigValue ≠ [98] := by
  obtain ⟨n, rfl⟩ : ∃ n, N = n + 1 := ⟨N - 1, by omega⟩
  have hn : n = 1048575 := by omega
  have hput := put_ok demoHasher .ideal (afterBigPuts (n + 1)) 1 [98] (by simp) rfl
  have hwf : ∀ r ∈ List.replicate (n + 1) bigRec ++ [(⟨1, some [98]⟩ : Rec)], r.wf := by
    intro r hr
    rcases List.mem_append.mp hr with h | h
    · rw [List.eq_of_mem_replicate h]; exact bigRec_wf
    · rw [List.mem_singleton.mp h]; decide
  have hfile : (afterBigPuts (n + 1)).file ++ Rec.bytes demoHasher ⟨1, some [98]⟩
      = serialize demoHasher (List.replicate (n + 1) bigRec ++ [(⟨1, some [98]⟩ : Rec)]) := by
    rw [afterBigPuts_file, serialize_append]
    simp [serialize]
  have hlen : (serialize demoHasher
      (List.replicate (n + 1) bigRec ++ [(⟨1, some [98]⟩ : Rec)])).length = 4294967309 := by
    rw [serialize_append, List.length_append, serialize_replicate_bigRec_length]
    have : (serialize demoHasher [(⟨1, some [98]⟩ : Rec)]).length = 13 := rfl
    omega
  have hres := restore_log demoHasher _ hwf [] (badStart_nil demoHasher)
  rw [List.append_nil] at hres
  have hidx := replayFrom_replicate_bigRec_then ⟨1, some [98]⟩ (n + 1) 0 Store_T.empty
  have hoff : (((0 + (n + 1) * 4096 : Nat) : Int) + 8) = 4294967304 := by omega
  rw [hoff] at hidx
  have hbig : bigValue ≠ [98] := by
    intro h
    have := congrArg List.length h
    rw [bigValue_length] at this
    simp at this
  rw [hput]
  simp only [create, hfile, hres, hlen]
  refine ⟨trivial, trivial, trivial, hidx, ?_, hbig⟩
  have hu : toUInt32 4294967304 = 8 := by simp [toUInt32]
  have hidx' : replay (List.replicate (n + 1) bigRec ++ [(⟨1, some [98]⟩ : Rec)]) 1
      = some ⟨4294967304, false⟩ := hidx
  simp only [get, hidx', hu]
  have h := getValueFromOffset_value 0 demoHasher []
    (serialize demoHasher (List.replicate n bigRec ++ [(⟨1, some [98]⟩ : Rec)])) 0 bigValue
    (by rw [bigValue_length]; omega)
  rw [List.replicate_succ, List.cons_append, serialize_cons]
  simpa [bigRec] using h

/-- C3 fails on the code once the log exceeds 4 GiB. Starting from a missing file, 1048576
calls `put(0, bigValue)` followed by `put(1, "b")` all return normally and leave a log of
`2^32 + 13` bytes that recovery accepts in full, with key 1 live at offset `2^32 + 8`.
`get(1)` on the reopened store narrows that offset to the `uint32_t` 8 and returns the value
of the first record, `bigValue`, instead of `"b"`. -/
theorem get_after_reopen_on_4GiB_log :
    (put demoHasher .ideal (afterBigPuts 1048576) 1 [98]).1 = Except.ok () ∧
    (put demoHasher .ideal (afterBigPuts 1048576) 1 [98]).2.file.length = 4294967309 ∧
    (restore demoHasher
      (some (put demoHasher .ideal (afterBigPuts 1048576) 1 [98]).2.file)).2 = 4294967309 ∧
    (create demoHasher
      (some (put demoHasher .ideal (afterBigPuts 1048576) 1 [98]).2.file)).store_ 1
      = some ⟨4294967304, false⟩ ∧
    get 0 (create demoHasher
      (some (put demoHasher .ideal (afterBigPuts 1048576) 1 [98]).2.file)) 1
      = some bigValue ∧
    bigValue ≠ [98] :=
  get_after_reopen_wrapped 1048576 rfl

end KVStore

namespace KVStore

/-! ## The loop is never cut short by its fuel -/

theorem restoreLoop_short (H : Hasher) (fuel : Nat) (r : Reader) (m : Store_T) (vp : Nat)
    (h : r.rest.length < 12) : restoreLoop H fuel r m vp = (m, vp) := by
  cases r with
  | mk rest p fs =>
    exact restoreLoop_badStart H rest (by simp [badStart]; left; left; left; left; exact h)
      fuel p fs m vp

/-- The loop gives the same result for any two amounts of fuel that are at least the number of
unread bytes. -/
theorem restoreLoop_fuel (H : Hasher) :
    ∀ (f1 f2 : Nat) (r : Reader) (m : Store_T) (vp : Nat),
      r.rest.length ≤ f1 → r.rest.length ≤ f2 →
      restoreLoop H f1 r m vp = restoreLoop H f2 r m vp := by
  intro f1
  induction f1 with
  | zero =>
    intro f2 r m vp h1 _
    rw [restoreLoop_short H 0 r m vp (by omega), restoreLoop_short H f2 r m vp (by omega)]
  | succ f1 ih =>
    intro f2 r m vp h1 h2
    cases f2 with
    | zero =>
      rw [restoreLoop_short H _ r m vp (by omega), restoreLoop_short H 0 r m vp (by omega)]
    | succ f2 =>
      by_cases hshort : r.rest.length < 12
      · rw [restoreLoop_short H _ r m vp hshort, restoreLoop_short H _ r m vp hshort]
      cases r with
      | mk rest p fs =>
        simp only at h1 h2 hshort
        have h4 : 4 ≤ rest.length := by omega
        have h8 : 4 ≤ rest.length - 4 := by omega
        have h12 : 4 ≤ rest.length - 8 := by omega
        by_cases hp : p < fs
        swap
        · simp [restoreLoop, Reader.hasNext, hp]
        generalize hl : fromLE (List.take 4 (List.drop 8 rest)) = len
        by_cases ht : len = kTombstone
        · by_cases hc : fromLE (List.take 4 rest) = make_checksum H
              (UInt32.ofNat (fromLE (List.take 4 (List.drop 4 rest)))) kTombstone none
          · simp only [restoreLoop, Reader.hasNext, Reader.readInt, List.length_drop,
              List.drop_drop, hp, h4, h8, h12, hl, ht, hc, decide_True, if_true, if_false,
              ne_eq, not_true_eq_false, Bool.true_eq_false]
            apply ih
            · simp only [List.length_drop]; omega
            · simp only [List.length_drop]; omega
          · simp [restoreLoop, Reader.hasNext, Reader.readInt, hp, h4, h8, h12, hl, ht, hc]
        · by_cases hmax : len > kMaxValueSize
          · simp [restoreLoop, Reader.hasNext, Reader.readInt, hp, h4, h8, h12, hl, ht, hmax]
          · by_cases hfit : len ≤ rest.length - 12
            · by_cases hc : fromLE (List.take 4 rest) = make_checksum H
                  (UInt32.ofNat (fromLE (List.take 4 (List.drop 4 rest)))) len
                  (some (List.take len (List.drop 12 rest)))
              · simp only [restoreLoop, Reader.hasNext, Reader.readInt, Reader.read,
                  List.length_drop, List.drop_drop, hp, h4, h8, h12, hl, ht, hc, hmax, hfit,
                  decide_True, if_true, if_false, ne_eq, not_true_eq_false, not_false_eq_true,
                  Bool.true_eq_false]
                apply ih
                · simp only [List.length_drop]; omega
                · simp only [List.length_drop]; omega
              · simp [restoreLoop, Reader.hasNext, Reader.readInt, Reader.read, hp, h4, h8,
                  h12, hl, ht, hmax, hfit, hc]
            · simp [restoreLoop, Reader.hasNext, Reader.readInt, Reader.read, hp, h4, h8, h12,
                hl, ht, hmax, hfit]

end KVStore

namespace KVStore

/-! ## Evaluations on small inputs -/

/-- C1 fails on the code. On a store constructed on a log whose latest record for key 1 is a
tombstone, `put(1, "b")` returns normally and raises the entry's offset to the new record, but
leaves `is_deleted` set, so the `get(1)` that follows returns absent instead of `"b"`. -/
theorem put_after_recovered_tombstone_get_absent :
    reopenedOnTombstone.store_ 1 = some ⟨21, true⟩ ∧
    (put demoHasher .ideal reopenedOnTombstone 1 [98]).1 = Except.ok () ∧
    (put demoHasher .ideal reopenedOnTombstone 1 [98]).2.store_ 1 = some ⟨33, true⟩ ∧
    get 0 (put demoHasher .ideal reopenedOnTombstone 1 [98]).2 1 = none := by
  refine ⟨?_, ?_, ?_, ?_⟩ <;> rfl

/-- C5 fails on the code, in two ways.  (a) After `put(1, "b")` on a store constructed on a log
whose latest record for key 1 is a tombstone, `get(1)` is absent in the session but `"b"` after
reopening.  (b) A store constructed on a file with a torn tail appends after the tail, which
recovery never removed: `put(2, "c")` is read back in the session and lost after reopening. -/
theorem reopen_changes_get :
    get 0 (put demoHasher .ideal reopenedOnTombstone 1 [98]).2 1 = none ∧
    get 0 (create demoHasher
      (some (put demoHasher .ideal reopenedOnTombstone 1 [98]).2.file)) 1 = some [98] ∧
    get 0 (put demoHasher .ideal (create demoHasher (some tornLog)) 2 [99]).2 2 = some [99] ∧
    get 0 (create demoHasher
      (some (put demoHasher .ideal (create demoHasher (some tornLog)) 2 [99]).2.file)) 2
      = none := by
  refine ⟨?_, ?_, ?_, ?_⟩ <;> rfl

/-- C6 fails on the code. On a clean log of 25 bytes followed by 7 torn bytes, recovery
validates 25 bytes (`valid_pos = 25`) and leaves all 32 bytes in the file; the next record is
appended at byte 32 (value offset 40), not at `valid_pos`. -/
theorem restore_keeps_torn_tail :
    (restore demoHasher (some tornLog)).2 = 25 ∧
    (restore demoHasher (some tornLog)).1.file = tornLog ∧
    tornLog.length = 32 ∧
    (put demoHasher .ideal (create demoHasher (some tornLog)) 2 [99]).2.store_ 2
      = some ⟨40, false⟩ := by
  refine ⟨?_, ?_, ?_, ?_⟩ <;> rfl

/-- C9 fails on the code. After `put(1, "a")` and `remove(1)` in one session the latest record
of key 1 is a tombstone and `get(1)` is absent, but the index entry still has
`is_deleted = false`; a second `remove(1)` appends another 12-byte tombstone and moves the
entry's offset. -/
theorem remove_after_remove_appends :
    removedInSession.file.length = 25 ∧
    removedInSession.store_ 1 = some ⟨21, false⟩ ∧
    get 0 removedInSession 1 = none ∧
    (remove demoHasher .ideal removedInSession 1).2.file.length = 37 ∧
    (remove demoHasher .ideal removedInSession 1).2.store_ 1 = some ⟨33, false⟩ := by
  refine ⟨?_, ?_, ?_, ?_, ?_⟩ <;> rfl

/-- C10 fails on the code. With a complete `write` and an `fsync` that returns `-1`, `put` and
`remove` both return normally. -/
theorem failed_fsync_not_reported :
    (put demoHasher ⟨fun n => (n : Int), -1⟩ (create demoHasher none) 1 [97]).1
      = Except.ok () ∧
    (remove demoHasher ⟨fun n => (n : Int), -1⟩
      (put demoHasher .ideal (create demoHasher none) 1 [97]).2 1).1 = Except.ok () ∧
    (remove demoHasher ⟨fun n => (n : Int), -1⟩
      (put demoHasher .ideal (create demoHasher none) 1 [97]).2 1).2.file.length = 25 := by
  refine ⟨?_, ?_, ?_⟩ <;> rfl

end KVStore

namespace KVStore

/-! ## Every file is a log of records followed by a bad start -/

theorem ofNat_toNat_u8 (b : UInt8) : UInt8.ofNat b.toNat = b := by
  apply UInt8.ext
  have h := toNat_ofNat_u8 b.toNat
  have := b.toNat_lt
  omega

theorem le32_fromLE (bs : List UInt8) (h : bs.length = 4) : le32 (fromLE bs) = bs := by
  match bs, h with
  | [a, b, c, d], _ =>
    have ha := a.toNat_lt
    have hb := b.toNat_lt
    have hc := c.toNat_lt
    have hd := d.toNat_lt
    have h1 : (a.toNat + 256 * (b.toNat + 256 * (c.toNat + 256 * (d.toNat + 256 * 0)))) % 256
        = a.toNat := by omega
    have h2 : (a.toNat + 256 * (b.toNat + 256 * (c.toNat + 256 * (d.toNat + 256 * 0)))) / 256
        % 256 = b.toNat := by omega
    have h3 : (a.toNat + 256 * (b.toNat + 256 * (c.toNat + 256 * (d.toNat + 256 * 0)))) / 65536
        % 256 = c.toNat := by omega
    have h4 : (a.toNat + 256 * (b.toNat + 256 * (c.toNat + 256 * (d.toNat + 256 * 0))))
        / 16777216 % 256 = d.toNat := by omega
    simp only [le32, fromLE, h1, h2, h3, h4, ofNat_toNat_u8]

theorem fromLE_lt (bs : List UInt8) (h : bs.length = 4) : fromLE bs < 4294967296 := by
  match bs, h with
  | [a, b, c, d], _ =>
    have ha := a.toNat_lt
    have hb := b.toNat_lt
    have hc := c.toNat_lt
    have hd := d.toNat_lt
    simp only [fromLE]
    omega

end KVStore

namespace KVStore

theorem split_header (b : List UInt8) :
    b = List.take 4 b ++ (List.take 4 (List.drop 4 b) ++ (List.take 4 (List.drop 8 b)
      ++ List.drop 12 b)) := by
  have h1 : List.drop 12 b = List.drop 4 (List.drop 8 b) := by rw [List.drop_drop]
  have h2 : List.drop 8 b = List.drop 4 (List.drop 4 b) := by rw [List.drop_drop]
  rw [h1, List.take_append_drop, h2, List.take_append_drop, List.take_append_drop]

theorem goodStart (H : Hasher) (b : List UInt8) (hb : badStart H b = false) :
    ∃ (r : Rec) (rest : List UInt8), r.wf ∧ b = r.bytes H ++ rest := by
  simp only [badStart, Bool.or_eq_false_iff, Bool.and_eq_false_imp, decide_eq_true_eq,
    decide_eq_false_iff_not, not_lt, not_not] at hb
  obtain ⟨⟨⟨⟨hlen, hrange⟩, hfit⟩, hsum⟩, htomb⟩ := hb
  have hc4 : (List.take 4 b).length = 4 := by rw [List.length_take]; omega
  have hk4 : (List.take 4 (List.drop 4 b)).length = 4 := by
    rw [List.length_take, List.length_drop]; omega
  have hl4 : (List.take 4 (List.drop 8 b)).length = 4 := by
    rw [List.length_take, List.length_drop]; omega
  have hklt := fromLE_lt _ hk4
  have hllt := fromLE_lt _ hl4
  have hkey : (UInt32.ofNat (fromLE (List.take 4 (List.drop 4 b)))).toNat
      = fromLE (List.take 4 (List.drop 4 b)) := by
    rw [toNat_ofNat_u32]; omega
  by_cases ht : fromLE (List.take 4 (List.drop 8 b)) = kTombstone
  · refine ⟨⟨UInt32.ofNat (fromLE (List.take 4 (List.drop 4 b))), none⟩, List.drop 12 b,
      trivial, ?_⟩
    have hs := htomb ht
    have hc : le32 (make_checksum H (UInt32.ofNat (fromLE (List.take 4 (List.drop 4 b))))
        kTombstone none) = List.take 4 b := by
      rw [← hs]; exact le32_fromLE _ hc4
    have hl : le32 kTombstone = List.take 4 (List.drop 8 b) := by
      rw [← ht]; exact le32_fromLE _ hl4
    simp only [Rec.bytes, recordBytes, Rec.lengthField, List.append_assoc, hkey, hc, hl,
      le32_fromLE _ hk4]
    exact split_header b
  · have hle : fromLE (List.take 4 (List.drop 8 b)) ≤ kMaxValueSize := by
      by_contra hgt
      have := hrange (by omega)
      unfold kTombstone at this ht
      omega
    have hfit' := hfit hle
    have hs := hsum hle
    have hvlen : (List.take (fromLE (List.take 4 (List.drop 8 b))) (List.drop 12 b)).length
        = fromLE (List.take 4 (List.drop 8 b)) := by
      rw [List.length_take, List.length_drop]; omega
    refine ⟨⟨UInt32.ofNat (fromLE (List.take 4 (List.drop 4 b))),
      some (List.take (fromLE (List.take 4 (List.drop 8 b))) (List.drop 12 b))⟩,
      List.drop (fromLE (List.take 4 (List.drop 8 b))) (List.drop 12 b), ?_, ?_⟩
    · show (List.take _ _).length ≤ kMaxValueSize
      rw [hvlen]; exact hle
    · have hmod : fromLE (List.take 4 (List.drop 8 b)) % 4294967296
          = fromLE (List.take 4 (List.drop 8 b)) := by omega
      have hc : le32 (make_checksum H (UInt32.ofNat (fromLE (List.take 4 (List.drop 4 b))))
          (fromLE (List.take 4 (List.drop 8 b)))
          (some (List.take (fromLE (List.take 4 (List.drop 8 b))) (List.drop 12 b))))
          = List.take 4 b := by
        rw [← hs]; exact le32_fromLE _ hc4
      simp only [Rec.bytes, recordBytes, Rec.lengthField, List.append_assoc, hkey, hvlen, hmod,
        hc, le32_fromLE _ hk4, le32_fromLE _ hl4, List.take_length,
        List.take_take, Nat.min_self, List.take_append_drop]
      exact split_header b

/-- Every file is a sequence of well-formed records followed by bytes that do not begin with
one. -/
theorem file_decomposition (H : Hasher) :
    ∀ (n : Nat) (file : List UInt8), file.length ≤ n →
      ∃ (rs : List Rec) (b : List UInt8),
        (∀ r ∈ rs, r.wf) ∧ badStart H b = true ∧ file = serialize H rs ++ b := by
  intro n
  induction n with
  | zero =>
    intro file h
    have : file = [] := List.length_eq_zero.mp (by omega)
    exact ⟨[], [], by simp, badStart_nil H, by simp [this, serialize]⟩
  | succ n ih =>
    intro file h
    by_cases hb : badStart H file = true
    · exact ⟨[], file, by simp, hb, by simp [serialize]⟩
    · obtain ⟨r, rest, hwf, hEq⟩ := goodStart H file (by simpa using hb)
      have hsz := Rec.bytes_length H r hwf
      have hpos := r.size_pos
      have hrest : rest.length ≤ n := by
        have := congrArg List.length hEq
        rw [List.length_append] at this
        omega
      obtain ⟨rs, b, hrs, hbad, hEq'⟩ := ih rest hrest
      refine ⟨r :: rs, b, ?_, hbad, ?_⟩
      · intro x hx
        rcases List.mem_cons.mp hx with h1 | h1
        · rw [h1]; exact hwf
        · exact hrs x h1
      · rw [serialize_cons, List.append_assoc, ← hEq', ← hEq]

end KVStore

namespace KVStore

/-! ## Index entries point into the file -/

theorem restore_any (H : Hasher) (file : List UInt8) :
    ∃ (rs : List Rec) (b : List UInt8),
      (∀ r ∈ rs, r.wf) ∧ badStart H b = true ∧ file = serialize H rs ++ b ∧
      restore H (some file) = ({ file := file, store_ := replay rs }, (serialize H rs).length) := by
  obtain ⟨rs, b, hwf, hb, hEq⟩ := file_decomposition H file.length file (Nat.le_refl _)
  refine ⟨rs, b, hwf, hb, hEq, ?_⟩
  rw [hEq]
  exact restore_log H rs hwf b hb

theorem PointsAt.append {H : Hasher} {file : List UInt8} {k : K} {e : StoreValue}
    (h : PointsAt H file k e) (more : List UInt8) : PointsAt H (file ++ more) k e := by
  obtain ⟨pre, post, r, hwf, hk, hf, ho⟩ := h
  exact ⟨pre, post ++ more, r, hwf, hk, by rw [hf]; simp, ho⟩

theorem PointsAt.offset_bounds {H : Hasher} {file : List UInt8} {k : K} {e : StoreValue}
    (h : PointsAt H file k e) : 8 ≤ e.offset ∧ e.offset + 4 ≤ (file.length : Int) := by
  obtain ⟨pre, post, r, hwf, _, hf, ho⟩ := h
  have h1 := Rec.bytes_length H r hwf
  have h2 := r.size_pos
  have h3 := congrArg List.length hf
  simp only [List.length_append] at h3
  omega

theorem replayFrom_pointsAt (H : Hasher) (tail : List UInt8) (rs : List Rec)
    (hwf : ∀ r ∈ rs, r.wf) :
    ∀ (pre : List UInt8) (m : Store_T) (k : K) (e : StoreValue),
      replayFrom pre.length m rs k = some e →
      m k = some e ∨ PointsAt H (pre ++ (serialize H rs ++ tail)) k e := by
  induction rs with
  | nil => intro pre m k e h; left; exact h
  | cons r rs ih =>
    intro pre m k e h
    have hr := hwf r (List.mem_cons_self r rs)
    have hlen := Rec.bytes_length H r hr
    simp only [replayFrom] at h
    have h' : replayFrom (pre ++ r.bytes H).length
        (m.assign r.key ⟨(pre.length : Int) + 8, r.value.isNone⟩) rs k = some e := by
      rw [List.length_append, hlen]; exact h
    rcases ih (fun x hx => hwf x (List.mem_cons_of_mem r hx)) (pre ++ r.bytes H) _ k e h'
      with h1 | h1
    · simp only [Store_T.assign] at h1
      split at h1
      · rename_i hk
        right
        refine ⟨pre, serialize H rs ++ tail, r, hr, hk.symm, ?_, ?_⟩
        · simp [serialize_cons]
        · simp only [Option.some.injEq] at h1
          rw [← h1]
      · left; exact h1
    · right
      simpa [serialize_cons] using h1

theorem create_indexInFile (H : Hasher) (disk : Option (List UInt8)) :
    IndexInFile H (create H disk) := by
  cases disk with
  | none => intro k e h; simp [create, restore, Store_T.empty] at h
  | some file =>
    obtain ⟨rs, b, hwf, _, hEq, hres⟩ := restore_any H file
    intro k e h
    simp only [create, hres] at h ⊢
    rcases replayFrom_pointsAt H b rs hwf [] Store_T.empty k e h with h1 | h1
    · simp [Store_T.empty] at h1
    · rw [hEq]; simpa using h1

end KVStore

namespace KVStore

/-! ## Calls preserve the index invariant while the log is below 2 GiB -/

theorem doPut_cases (H : Hasher) (env : Env) (henv : env.wf) (s : KVStore) (key : K)
    (value : Option V) (hwf : (Rec.mk key value).wf) :
    doPut H env s key value
      = (.ok (), { file := s.file ++ Rec.bytes H ⟨key, value⟩,
                   store_ := doPutIndex s.store_ key
                     (toInt32 (s.file.length : Int) + 8) value }) ∨
    ∃ (e : String) (part : List UInt8),
      doPut H env s key value = (.error e, { file := s.file ++ part, store_ := s.store_ }) := by
  by_cases hw : env.write_ret (Rec.mk key value).size = (((Rec.mk key value).size : Nat) : Int)
  · left; exact doPut_ok H env s key value hwf hw
  · right
    have hlen := Rec.bytes_length H ⟨key, value⟩ hwf
    have hlt := Rec.size_lt ⟨key, value⟩ hwf
    simp only [Rec.bytes, Rec.lengthField] at hlen
    have hb := henv (Rec.mk key value).size
    have hne : toUInt64 (toInt32 (env.write_ret (Rec.mk key value).size))
        ≠ (Rec.mk key value).size := by
      unfold toUInt64 toInt32; omega
    unfold doPut appendRecord
    simp only [hlen, ne_eq, hne, not_false_eq_true, if_true]
    exact ⟨_, _, rfl⟩

theorem doPutIndex_lookup (m : Store_T) (key : K) (off : Int) (value : Option V) (k : K)
    (e : StoreValue) (h : doPutIndex m key off value k = some e) :
    m k = some e ∨ (k = key ∧ e.offset = off) := by
  by_cases hk : k = key
  · cases hm : m key with
    | none =>
      right
      simp only [doPutIndex, hm, Store_T.assign, hk, if_true, Option.some.injEq] at h
      exact ⟨hk, by rw [← h]⟩
    | some e0 =>
      by_cases hlt : e0.offset < off
      · right
        simp only [doPutIndex, hm, hlt, Store_T.assign, hk, if_true, Option.some.injEq] at h
        exact ⟨hk, by rw [← h]⟩
      · left
        simp only [doPutIndex, hm, hlt, if_false] at h
        exact h
  · left
    cases hm : m key with
    | none =>
      simp only [doPutIndex, hm, Store_T.assign, hk, if_false] at h
      exact h
    | some e0 =>
      by_cases hlt : e0.offset < off
      · simp only [doPutIndex, hm, hlt, Store_T.assign, hk, if_true, if_false] at h
        exact h
      · simp only [doPutIndex, hm, hlt, if_false] at h
        exact h

theorem doPut_indexInFile (H : Hasher) (env : Env) (henv : env.wf) (s : KVStore) (key : K)
    (value : Option V) (hwf : (Rec.mk key value).wf) (hs : IndexInFile H s)
    (hsmall : s.file.length < 2147483648) :
    IndexInFile H (doPut H env s key value).2 := by
  rcases doPut_cases H env henv s key value hwf with h | ⟨e, part, h⟩
  · rw [h]
    intro k e he
    rcases doPutIndex_lookup _ _ _ _ _ _ he with h1 | ⟨hk, ho⟩
    · exact (hs k e h1).append _
    · refine ⟨s.file, [], ⟨key, value⟩, hwf, hk.symm, by simp, ?_⟩
      rw [ho, toInt32_of_lt hsmall]
  · rw [h]
    intro k e' he
    exact (hs k e' he).append _

theorem step_indexInFile (H : Hasher) (s : KVStore) (c : Call) (henv : c.env.wf)
    (hs : IndexInFile H s) (hsmall : s.file.length < 2147483648) :
    IndexInFile H (step H s c) := by
  cases c with
  | put env key value =>
    simp only [step, put]
    split
    · exact hs
    · rename_i hv
      exact doPut_indexInFile H env henv s key (some value)
        (by show value.length ≤ kMaxValueSize; omega) hs hsmall
  | remove env key =>
    simp only [step, remove]
    split
    · exact doPut_indexInFile H env henv s key none trivial hs hsmall
    · exact hs

theorem appendRecord_state (env : Env) (s : KVStore) (c : Nat) (key : K) (value : Option V) :
    (appendRecord env s c key value).2
      = KVStore.mk
          (s.file ++ List.take (env.write_ret (recordBytes c key value).length).toNat
            (recordBytes c key value))
          s.store_ := by
  unfold appendRecord
  simp only
  split <;> rfl

theorem doPut_file (H : Hasher) (env : Env) (s : KVStore) (key : K) (value : Option V) :
    (doPut H env s key value).2.file
      = (appendRecord env s (make_checksum H key (Rec.mk key value).lengthField value)
          key value).2.file := by
  unfold doPut
  simp only [Rec.lengthField]
  generalize appendRecord env s _ key value = r
  rcases r with ⟨r1, s1⟩
  cases r1 <;> rfl

theorem doPut_file_mono (H : Hasher) (env : Env) (s : KVStore) (key : K) (value : Option V) :
    s.file.length ≤ (doPut H env s key value).2.file.length := by
  rw [doPut_file, appendRecord_state]
  simp only [List.length_append]
  omega

theorem step_file_mono (H : Hasher) (s : KVStore) (c : Call) :
    s.file.length ≤ (step H s c).file.length := by
  cases c with
  | put env key value =>
    simp only [step, put]
    split
    · exact Nat.le_refl _
    · exact doPut_file_mono H env s key (some value)
  | remove env key =>
    simp only [step, remove]
    split
    · exact doPut_file_mono H env s key none
    · exact Nat.le_refl _

theorem run_file_mono (H : Hasher) (calls : List Call) :
    ∀ s : KVStore, s.file.length ≤ (run H s calls).file.length := by
  induction calls with
  | nil => intro s; exact Nat.le_refl _
  | cons c cs ih =>
    intro s
    exact Nat.le_trans (step_file_mono H s c) (ih (step H s c))

theorem run_indexInFile (H : Hasher) (calls : List Call) (henv : ∀ c ∈ calls, c.env.wf) :
    ∀ s : KVStore, IndexInFile H s → (run H s calls).file.length < 2147483648 →
      IndexInFile H (run H s calls) := by
  induction calls with
  | nil => intro s hs _; exact hs
  | cons c cs ih =>
    intro s hs hsmall
    have h1 : (step H s c).file.length ≤ (run H s (c :: cs)).file.length :=
      run_file_mono H cs (step H s c)
    have h2 := step_file_mono H s c
    exact ih (fun x hx => henv x (List.mem_cons_of_mem c hx)) (step H s c)
      (step_indexInFile H s c (henv c (List.mem_cons_self c cs)) hs (by omega)) hsmall

end KVStore

namespace KVStore

/-! ## What holds while the log is below 2 GiB -/

/-- In every state reached from any file by calls under a well-behaved `write(2)`, every index
entry points at a well-formed record of its key, as long as the log is below `2^31` bytes. -/
theorem reachable_indexInFile (H : Hasher) (disk : Option (List UInt8)) (calls : List Call)
    (henv : ∀ c ∈ calls, c.env.wf)
    (hsmall : (run H (create H disk) calls).file.length < 2147483648) :
    IndexInFile H (run H (create H disk) calls) :=
  run_indexInFile H calls henv (create H disk) (create_indexInFile H disk) hsmall

theorem doPutIndex_raise (m : Store_T) (key : K) (off : Int) (value : Option V)
    (e : StoreValue) (he : m key = some e) (hlt : e.offset < off) :
    doPutIndex m key off value key = some ⟨off, e.is_deleted⟩ := by
  simp [doPutIndex, he, hlt, Store_T.assign]

theorem doPutIndex_insert (m : Store_T) (key : K) (off : Int) (value : Option V)
    (he : m key = none) :
    doPutIndex m key off value key = some ⟨off, value.isNone⟩ := by
  simp [doPutIndex, he, Store_T.assign]

/-- In a state whose index points into a log below `2^31` bytes, `remove(k)` with a complete write
returns normally and the `get(k)` that follows is absent. -/
theorem remove_then_get_of_small (H : Hasher) (env : Env) (s : KVStore) (k : K) (junk : Nat)
    (hs : IndexInFile H s) (hsmall : s.file.length < 2147483648)
    (hw : env.write_ret 12 = 12) :
    (remove H env s k).1 = Except.ok () ∧ get junk (remove H env s k).2 k = none := by
  by_cases hex : exists_ s k = true
  · rw [remove_ok H env s k hex hw]
    refine ⟨rfl, ?_⟩
    cases he : s.store_ k with
    | none => simp [exists_, he] at hex
    | some e =>
      have hdel : e.is_deleted = false := by simpa [exists_, he] using hex
      have hb := (hs k e he).offset_bounds
      have h32 := toInt32_of_lt hsmall
      have hidx := doPutIndex_raise s.store_ k (toInt32 (s.file.length : Int) + 8) none e he
        (by rw [h32]; omega)
      have hu : ((toUInt32 ((s.file.length : Int) + 8) : Nat) : Int)
          = ((s.file.length + 8 : Nat) : Int) := by
        unfold toUInt32; omega
      have hread := getValueFromOffset_tombstone junk H s.file [] k
      simp only [List.append_nil] at hread
      rw [h32] at hidx
      simp only [get, h32, hidx, hdel, hu, Bool.false_eq_true, if_false]
      exact hread
  · have hex' : exists_ s k = false := by simpa using hex
    rw [remove_noop H env s k hex']
    refine ⟨rfl, ?_⟩
    cases he : s.store_ k with
    | none => simp [get, he]
    | some e =>
      have hdel : e.is_deleted = true := by simpa [exists_, he] using hex'
      simp [get, he, hdel]

/-- In a state whose index points into a log below `2^31` bytes, `put(k, v)` with a complete write
of a key whose entry (if any) is not flagged deleted returns normally and the `get(k)` that
follows returns `v`. -/
theorem put_then_get_of_small (H : Hasher) (env : Env) (s : KVStore) (k : K) (v : V)
    (junk : Nat) (hs : IndexInFile H s) (hsmall : s.file.length < 2147483648)
    (hv : v.length ≤ 4096)
    (hw : env.write_ret (12 + v.length) = ((12 + v.length : Nat) : Int))
    (hlive : ∀ e, s.store_ k = some e → e.is_deleted = false) :
    (put H env s k v).1 = Except.ok () ∧ get junk (put H env s k v).2 k = some v := by
  rw [put_ok H env s k v hv hw]
  refine ⟨rfl, ?_⟩
  have h32 := toInt32_of_lt hsmall
  have hu : ((toUInt32 ((s.file.length : Int) + 8) : Nat) : Int)
      = ((s.file.length + 8 : Nat) : Int) := by
    unfold toUInt32; omega
  have hread := getValueFromOffset_value junk H s.file [] k v hv
  simp only [List.append_nil] at hread
  cases he : s.store_ k with
  | none =>
    have hidx := doPutIndex_insert s.store_ k (toInt32 (s.file.length : Int) + 8) (some v) he
    rw [h32] at hidx
    simp only [get, h32, hidx, hu, Option.isNone_some, Bool.false_eq_true, if_false]
    exact hread
  | some e =>
    have hdel := hlive e he
    have hb := (hs k e he).offset_bounds
    have hidx := doPutIndex_raise s.store_ k (toInt32 (s.file.length : Int) + 8) (some v) e he
      (by rw [h32]; omega)
    rw [h32] at hidx
    simp only [get, h32, hidx, hdel, hu, Bool.false_eq_true, if_false]
    exact hread

end KVStore

namespace KVStore

/-! ## The max-offset rule -/

theorem doPutIndex_self (m : Store_T) (key : K) (off : Int) (value : Option V) :
    doPutIndex m key off value key
      = match m key with
        | some e => some (if e.offset < off then { e with offset := off } else e)
        | none => some ⟨off, value.isNone⟩ := by
  cases hm : m key with
  | none => simp [doPutIndex, hm, Store_T.assign]
  | some e =>
    by_cases hlt : e.offset < off
    · simp [doPutIndex, hm, hlt, Store_T.assign]
    · simp [doPutIndex, hm, hlt]

theorem applyUpdates_present (key : K) (ups : List (Int × Option V)) :
    ∀ (m : Store_T) (e0 : StoreValue), m key = some e0 →
      ∃ e, applyUpdates m key ups key = some e ∧ e0.offset ≤ e.offset ∧
        (∀ u ∈ ups, u.1 ≤ e.offset) ∧ (e.offset = e0.offset ∨ ∃ u ∈ ups, u.1 = e.offset) := by
  induction ups with
  | nil =>
    intro m e0 h
    exact ⟨e0, h, Int.le_refl _, by simp, Or.inl rfl⟩
  | cons u us ih =>
    intro m e0 h
    have h1 := doPutIndex_self m key u.1 u.2
    rw [h] at h1
    obtain ⟨e, he, hge, hall, hmem⟩ := ih (doPutIndex m key u.1 u.2) _ h1
    refine ⟨e, he, ?_, ?_, ?_⟩
    · by_cases hlt : e0.offset < u.1
      · simp only [hlt, if_true] at hge; omega
      · simpa only [hlt, if_false] using hge
    · intro x hx
      rcases List.mem_cons.mp hx with hx | hx
      · rw [hx]
        by_cases hlt : e0.offset < u.1
        · simpa only [hlt, if_true] using hge
        · simp only [hlt, if_false] at hge; omega
      · exact hall x hx
    · rcases hmem with hmem | ⟨x, hx, hxe⟩
      · by_cases hlt : e0.offset < u.1
        · simp only [hlt, if_true] at hmem
          exact Or.inr ⟨u, List.mem_cons_self u us, hmem.symm⟩
        · simp only [hlt, if_false] at hmem
          exact Or.inl hmem
      · exact Or.inr ⟨x, List.mem_cons_of_mem u hx, hxe⟩

theorem applyUpdates_absent (key : K) (u : Int × Option V) (us : List (Int × Option V))
    (m : Store_T) (h : m key = none) :
    ∃ e, applyUpdates m key (u :: us) key = some e ∧
      (∀ x ∈ u :: us, x.1 ≤ e.offset) ∧ ∃ x ∈ u :: us, x.1 = e.offset := by
  have h1 := doPutIndex_self m key u.1 u.2
  rw [h] at h1
  obtain ⟨e, he, hge, hall, hmem⟩ := applyUpdates_present key us (doPutIndex m key u.1 u.2) _ h1
  refine ⟨e, he, ?_, ?_⟩
  · intro x hx
    rcases List.mem_cons.mp hx with hx | hx
    · rw [hx]; exact hge
    · exact hall x hx
  · rcases hmem with hmem | ⟨x, hx, hxe⟩
    · exact ⟨u, List.mem_cons_self u us, hmem.symm⟩
    · exact ⟨x, List.mem_cons_of_mem u hx, hxe⟩

end KVStore

namespace KVStore

theorem applyUpdates_offset_perm (m : Store_T) (key : K) (ups ups' : List (Int × Option V))
    (hp : ups'.Perm ups) :
    (applyUpdates m key ups' key).map StoreValue.offset
      = (applyUpdates m key ups key).map StoreValue.offset := by
  cases hm : m key with
  | some e0 =>
    obtain ⟨e, he, _, hall, hmem⟩ := applyUpdates_present key ups m e0 hm
    obtain ⟨e', he', _, hall', hmem'⟩ := applyUpdates_present key ups' m e0 hm
    rw [he, he']
    simp only [Option.map_some', Option.some.injEq]
    have h1 : e.offset ≤ e'.offset := by
      rcases hmem with h | ⟨x, hx, hxe⟩
      · omega
      · rw [← hxe]; exact hall' x (hp.mem_iff.mpr hx)
    have h2 : e'.offset ≤ e.offset := by
      rcases hmem' with h | ⟨x, hx, hxe⟩
      · omega
      · rw [← hxe]; exact hall x (hp.mem_iff.mp hx)
    omega
  | none =>
    cases ups with
    | nil =>
      have : ups' = [] := List.Perm.eq_nil hp
      rw [this]
    | cons u us =>
      cases ups' with
      | nil => exact absurd (List.Perm.eq_nil hp.symm) (by simp)
      | cons u' us' =>
        obtain ⟨e, he, hall, x, hx, hxe⟩ := applyUpdates_absent key u us m hm
        obtain ⟨e', he', hall', x', hx', hxe'⟩ := applyUpdates_absent key u' us' m hm
        rw [he, he']
        simp only [Option.map_some', Option.some.injEq]
        have h1 : e.offset ≤ e'.offset := by
          rw [← hxe]; exact hall' x (hp.mem_iff.mpr hx)
        have h2 : e'.offset ≤ e.offset := by
          rw [← hxe']; exact hall x' (hp.mem_iff.mp hx')
        omega

/-- C14. The max-offset rule is order-independent. Applying `doPut`'s index update of one key
for a list of value offsets leaves the entry's offset equal to the greatest of them and of
the initial entry's offset (if the key was present); any reordering of the list gives the same
offset; and an update whose offset is not greater than the current entry's changes nothing. -/
theorem max_offset_rule_order_independent (m : Store_T) (key : K)
    (ups : List (Int × Option V)) :
    (∀ e0, m key = some e0 →
      ∃ e, applyUpdates m key ups key = some e ∧ e0.offset ≤ e.offset ∧
        (∀ u ∈ ups, u.1 ≤ e.offset) ∧ (e.offset = e0.offset ∨ ∃ u ∈ ups, u.1 = e.offset)) ∧
    (m key = none → ups ≠ [] →
      ∃ e, applyUpdates m key ups key = some e ∧
        (∀ u ∈ ups, u.1 ≤ e.offset) ∧ ∃ u ∈ ups, u.1 = e.offset) ∧
    (∀ ups' : List (Int × Option V), ups'.Perm ups →
      (applyUpdates m key ups' key).map StoreValue.offset
        = (applyUpdates m key ups key).map StoreValue.offset) ∧
    (∀ (off : Int) (v : Option V) (e : StoreValue), m key = some e → off ≤ e.offset →
      doPutIndex m key off v = m) := by
  refine ⟨fun e0 h => applyUpdates_present key ups m e0 h, ?_,
    fun ups' hp => applyUpdates_offset_perm m key ups ups' hp, ?_⟩
  · intro hm hne
    cases ups with
    | nil => exact absurd rfl hne
    | cons u us => exact applyUpdates_absent key u us m hm
  · intro off v e hm hle
    have : ¬ e.offset < off := by omega
    simp [doPutIndex, hm, this]

end KVStore

namespace KVStore

/-! ## Logs that recovery accepts in full -/

theorem replayFrom_append_single (H : Hasher) (r : Rec) (rs : List Rec)
    (hwf : ∀ x ∈ rs, x.wf) :
    ∀ (p : Nat) (m : Store_T),
      replayFrom p m (rs ++ [r])
        = (replayFrom p m rs).assign r.key
            ⟨((p + (serialize H rs).length : Nat) : Int) + 8, r.value.isNone⟩ := by
  induction rs with
  | nil => intro p m; simp [replayFrom, serialize]
  | cons x xs ih =>
    intro p m
    have hx := Rec.bytes_length H x (hwf x (List.mem_cons_self x xs))
    have harith : p + x.size + (serialize H xs).length
        = p + (serialize H (x :: xs)).length := by
      rw [serialize_cons, List.length_append, hx]; omega
    rw [List.cons_append, replayFrom, replayFrom,
      ih (fun y hy => hwf y (List.mem_cons_of_mem x hy)), harith]

theorem accepted_log (H : Hasher) (L : List UInt8)
    (hL : (restore H (some L)).2 = L.length) :
    ∃ rs : List Rec, (∀ r ∈ rs, r.wf) ∧ L = serialize H rs ∧
      (restore H (some L)).1.store_ = replay rs := by
  obtain ⟨rs, b, hwf, _, hEq, hres⟩ := restore_any H L
  rw [hres] at hL
  simp only at hL
  have hb : b = [] := by
    have h := congrArg List.length hEq
    rw [List.length_append] at h
    exact List.length_eq_zero.mp (by omega)
  rw [hb, List.append_nil] at hEq
  exact ⟨rs, hwf, hEq, by rw [hres]⟩

theorem restore_serialize (H : Hasher) (rs : List Rec) (hwf : ∀ r ∈ rs, r.wf) :
    restore H (some (serialize H rs))
      = ({ file := serialize H rs, store_ := replay rs }, (serialize H rs).length) := by
  have h := restore_log H rs hwf [] (badStart_nil H)
  rwa [List.append_nil] at h

/-- C16. Replay is an unconditional, in-order assignment that agrees with the writer's checksum.
If recovery accepts all of `L`, then for every record `r` as `put` (value of at most 4096 chars)
or `remove` serializes it, recovery on `L ++ r` accepts the whole file and yields the index of
recovery on `L` with the key of `r` reassigned to offset `|L| + 8` and
`is_deleted = (r is a tombstone)`, whatever entry the key had. -/
theorem restore_append_record (H : Hasher) (L : List UInt8)
    (hL : (restore H (some L)).2 = L.length) (r : Rec) (hr : r.wf) :
    (restore H (some (L ++ r.bytes H))).2 = (L ++ r.bytes H).length ∧
    (restore H (some (L ++ r.bytes H))).1.store_
      = (restore H (some L)).1.store_.assign r.key ⟨(L.length : Int) + 8, r.value.isNone⟩ := by
  obtain ⟨rs, hwf, hEq, hstore⟩ := accepted_log H L hL
  have hwf' : ∀ x ∈ rs ++ [r], x.wf := by
    intro x hx
    rcases List.mem_append.mp hx with h | h
    · exact hwf x h
    · rw [List.mem_singleton.mp h]; exact hr
  have hfile : L ++ r.bytes H = serialize H (rs ++ [r]) := by
    rw [serialize_append, hEq]; simp [serialize]
  rw [hstore, hfile, restore_serialize H _ hwf']
  refine ⟨rfl, ?_⟩
  show replay (rs ++ [r]) = _
  unfold replay
  rw [replayFrom_append_single H r rs hwf 0 Store_T.empty, hEq, Nat.zero_add]

/-- Instance of C16: the record of `put(1, "b")` appended to the log of `put(1, "a")`, `remove(1)`. -/
theorem restore_append_record_witness :
    (restore demoHasher (some removedInSession.file)).2 = removedInSession.file.length ∧
    (⟨1, some [98]⟩ : Rec).wf ∧
    (restore demoHasher (some (removedInSession.file
      ++ Rec.bytes demoHasher ⟨1, some [98]⟩))).2 = 38 ∧
    (restore demoHasher (some (removedInSession.file
      ++ Rec.bytes demoHasher ⟨1, some [98]⟩))).1.store_ 1 = some ⟨33, false⟩ :=
  have h := restore_append_record demoHasher removedInSession.file rfl ⟨1, some [98]⟩
    (by decide)
  ⟨rfl, by decide, h.1, by rw [h.2]; rfl⟩

end KVStore

namespace KVStore

/-! ## Calls that return normally -/

theorem Env.ideal_wf : Env.ideal.wf := by
  intro n
  simp only [Env.ideal]
  omega

theorem doPut_of_ok (H : Hasher) (env : Env) (henv : env.wf) (s : KVStore) (key : K)
    (value : Option V) (hwf : (Rec.mk key value).wf)
    (hok : (doPut H env s key value).1 = Except.ok ()) :
    doPut H env s key value
      = (.ok (), { file := s.file ++ Rec.bytes H ⟨key, value⟩,
                   store_ := doPutIndex s.store_ key
                     (toInt32 (s.file.length : Int) + 8) value }) := by
  rcases doPut_cases H env henv s key value hwf with h | ⟨e, part, h⟩
  · exact h
  · rw [h] at hok
    simp at hok

theorem put_of_ok (H : Hasher) (env : Env) (henv : env.wf) (s : KVStore) (key : K) (v : V)
    (hok : (put H env s key v).1 = Except.ok ()) :
    v.length ≤ 4096 ∧
    put H env s key v
      = (.ok (), { file := s.file ++ Rec.bytes H ⟨key, some v⟩,
                   store_ := doPutIndex s.store_ key
                     (toInt32 (s.file.length : Int) + 8) (some v) }) := by
  by_cases hv : v.length > kMaxValueSize
  · simp [put, hv] at hok
  · have hv' : v.length ≤ 4096 := by unfold kMaxValueSize at hv; omega
    simp only [put, hv, if_false] at hok ⊢
    exact ⟨hv', doPut_of_ok H env henv s key (some v) hv' hok⟩

theorem remove_of_ok (H : Hasher) (env : Env) (henv : env.wf) (s : KVStore) (key : K)
    (hex : exists_ s key = true) (hok : (remove H env s key).1 = Except.ok ()) :
    remove H env s key
      = (.ok (), { file := s.file ++ Rec.bytes H ⟨key, none⟩,
                   store_ := doPutIndex s.store_ key
                     (toInt32 (s.file.length : Int) + 8) none }) := by
  simp only [remove, hex, if_true] at hok ⊢
  exact doPut_of_ok H env henv s key none trivial hok

theorem Rec.bytes_some (H : Hasher) (key : K) (v : V) (hv : v.length ≤ 4096) :
    Rec.bytes H ⟨key, some v⟩
      = le32 (make_checksum H key v.length (some v))
          ++ (le32 key.toNat ++ (le32 v.length ++ v)) := by
  have hv' : v.length % 4294967296 = v.length := by omega
  simp only [Rec.bytes, recordBytes, Rec.lengthField, hv', List.take_length,
    List.append_assoc]

theorem Rec.bytes_none (H : Hasher) (key : K) :
    Rec.bytes H ⟨key, none⟩
      = le32 (make_checksum H key kTombstone none)
          ++ (le32 key.toNat ++ le32 4294967295) := by
  simp only [Rec.bytes, recordBytes, Rec.lengthField, List.append_assoc, kTombstone]

theorem doPut_file_append (H : Hasher) (env : Env) (s : KVStore) (key : K)
    (value : Option V) : s.file <+: (doPut H env s key value).2.file := by
  rw [doPut_file, appendRecord_state]
  exact List.prefix_append _ _

/-- C17. A `put` that returns normally changes the file only by appending `12 + len(v)` bytes:
checksum, key and `len(v)` as 4-byte little-endian integers, then the chars of `v`. A `remove`
that writes to the log and returns normally appends exactly 12 bytes, with length field
`0xFFFFFFFF` and no value bytes; a `remove` that does not write leaves the file as it was. In
every case, also when the call throws, the previous contents remain as the start of the
file. -/
theorem successful_calls_append_only (H : Hasher) (env : Env) (henv : env.wf) (s : KVStore)
    (k : K) (v : V) :
    ((put H env s k v).1 = Except.ok () →
      (put H env s k v).2.file
        = s.file ++ (le32 (make_checksum H k v.length (some v))
            ++ (le32 k.toNat ++ (le32 v.length ++ v))) ∧
      (put H env s k v).2.file.length = s.file.length + (12 + v.length)) ∧
    ((remove H env s k).1 = Except.ok () → exists_ s k = true →
      (remove H env s k).2.file
        = s.file ++ (le32 (make_checksum H k kTombstone none)
            ++ (le32 k.toNat ++ le32 4294967295)) ∧
      (remove H env s k).2.file.length = s.file.length + 12) ∧
    (exists_ s k = false → (remove H env s k).2.file = s.file) ∧
    s.file <+: (put H env s k v).2.file ∧
    s.file <+: (remove H env s k).2.file := by
  refine ⟨?_, ?_, ?_, ?_, ?_⟩
  · intro hok
    obtain ⟨hv, hp⟩ := put_of_ok H env henv s k v hok
    rw [hp]
    simp only [Rec.bytes_some H k v hv]
    refine ⟨trivial, ?_⟩
    simp only [List.length_append, le32_length]
    omega
  · intro hok hex
    rw [remove_of_ok H env henv s k hex hok]
    simp only [Rec.bytes_none H k]
    refine ⟨trivial, ?_⟩
    simp only [List.length_append, le32_length]
  · intro hex
    rw [remove_noop H env s k hex]
  · simp only [put]
    split
    · exact List.prefix_rfl
    · exact doPut_file_append H env s k (some v)
  · simp only [remove]
    split
    · exact doPut_file_append H env s k none
    · exact List.prefix_rfl

/-- Instance of C17: `put` of a value with a zero char on a fresh store, then `remove`. -/
theorem successful_calls_append_only_witness :
    Env.ideal.wf ∧
    (put demoHasher .ideal (create demoHasher none) 1 [97, 0, 98]).2.file
      = [30, 155, 4, 0, 1, 0, 0, 0, 3, 0, 0, 0, 97, 0, 98] ∧
    (remove demoHasher .ideal
      (put demoHasher .ideal (create demoHasher none) 1 [97, 0, 98]).2 1).2.file
      = [30, 155, 4, 0, 1, 0, 0, 0, 3, 0, 0, 0, 97, 0, 98,
         254, 255, 255, 255, 1, 0, 0, 0, 255, 255, 255, 255] :=
  have h := successful_calls_append_only demoHasher .ideal Env.ideal_wf
    (put demoHasher .ideal (create demoHasher none) 1 [97, 0, 98]).2 1 [97, 0, 98]
  ⟨Env.ideal_wf, rfl, (h.2.1 rfl rfl).1⟩

end KVStore

namespace KVStore

/-! ## Well-formedness of the log is preserved -/

theorem step_ok_file (H : Hasher) (s : KVStore) (c : Call) (henv : c.env.wf)
    (hok : c.result H s = Except.ok ()) :
    (step H s c).file = s.file ∨ ∃ r : Rec, r.wf ∧ (step H s c).file = s.file ++ r.bytes H := by
  cases c with
  | put env key value =>
    obtain ⟨hv, hp⟩ := put_of_ok H env henv s key value hok
    right
    exact ⟨⟨key, some value⟩, hv, by simp only [step, hp]⟩
  | remove env key =>
    by_cases hex : exists_ s key = true
    · right
      exact ⟨⟨key, none⟩, trivial, by simp only [step, remove_of_ok H env henv s key hex hok]⟩
    · left
      simp only [step, remove_noop H env s key (by simpa using hex)]

theorem run_ok_serialize (H : Hasher) (calls : List Call) (henv : ∀ c ∈ calls, c.env.wf) :
    ∀ (s : KVStore) (rs : List Rec), (∀ r ∈ rs, r.wf) → s.file = serialize H rs →
      allOk H s calls →
      ∃ rs' : List Rec, (∀ r ∈ rs', r.wf) ∧ (run H s calls).file = serialize H rs' := by
  induction calls with
  | nil => intro s rs hwf hs _; exact ⟨rs, hwf, hs⟩
  | cons c cs ih =>
    intro s rs hwf hs hok
    obtain ⟨hc, hrest⟩ := hok
    have henv' := fun x hx => henv x (List.mem_cons_of_mem c hx)
    rcases step_ok_file H s c (henv c (List.mem_cons_self c cs)) hc with h | ⟨r, hr, h⟩
    · exact ih henv' (step H s c) rs hwf (by rw [h, hs]) hrest
    · refine ih henv' (step H s c) (rs ++ [r]) ?_ ?_ hrest
      · intro x hx
        rcases List.mem_append.mp hx with hx | hx
        · exact hwf x hx
        · rw [List.mem_singleton.mp hx]; exact hr
      · rw [h, hs, serialize_append]; simp [serialize]

/-- C20. Log well-formedness is preserved: if recovery accepts the whole file when the store
is constructed (`valid_pos` equals the file size, as for a missing or empty file), then after
every sequence of `put`/`remove` calls that all return normally, recovery on the resulting
file accepts the whole file again. -/
theorem run_preserves_full_acceptance (H : Hasher) (disk : Option (List UInt8))
    (calls : List Call) (henv : ∀ c ∈ calls, c.env.wf)
    (hacc : (restore H disk).2 = (restore H disk).1.file.length)
    (hok : allOk H (create H disk) calls) :
    (restore H (some (run H (create H disk) calls).file)).2
      = (run H (create H disk) calls).file.length := by
  have hstart : ∃ rs : List Rec, (∀ r ∈ rs, r.wf) ∧ (create H disk).file = serialize H rs := by
    cases disk with
    | none => exact ⟨[], by simp, rfl⟩
    | some L =>
      obtain ⟨rs, hwf, hEq, _⟩ := accepted_log H L hacc
      exact ⟨rs, hwf, hEq⟩
  obtain ⟨rs, hwf, hs⟩ := hstart
  obtain ⟨rs', hwf', hfile⟩ := run_ok_serialize H calls henv (create H disk) rs hwf hs hok
  rw [hfile, restore_serialize H rs' hwf']

/-- Instance of C20: four calls on a fresh store, one of them a `remove` that writes nothing. -/
theorem run_preserves_full_acceptance_witness :
    (∀ c ∈ [Call.put .ideal 1 [97], .remove .ideal 1, .remove .ideal 2, .put .ideal 2 []],
      c.env.wf) ∧
    (restore demoHasher none).2 = (restore demoHasher none).1.file.length ∧
    allOk demoHasher (create demoHasher none)
      [.put .ideal 1 [97], .remove .ideal 1, .remove .ideal 2, .put .ideal 2 []] ∧
    (restore demoHasher (some (run demoHasher (create demoHasher none)
      [.put .ideal 1 [97], .remove .ideal 1, .remove .ideal 2, .put .ideal 2 []]).file)).2
      = 37 :=
  have henv : ∀ c ∈ [Call.put .ideal 1 [97], .remove .ideal 1, .remove .ideal 2,
      .put .ideal 2 []], c.env.wf := by
    intro c hc
    simp only [List.mem_cons, List.mem_singleton, List.not_mem_nil, or_false] at hc
    rcases hc with h | h | h | h <;> rw [h] <;> exact Env.ideal_wf
  ⟨henv, rfl, ⟨rfl, rfl, rfl, rfl, trivial⟩,
    run_preserves_full_acceptance demoHasher none _ henv rfl ⟨rfl, rfl, rfl, rfl, trivial⟩⟩

end KVStore

namespace KVStore

/-! ## Index flags and offsets at the failing inputs -/

/-- C13 fails on the code. (a) After `put(1, "a")` and `remove(1)` in one session the entry of
key 1 is `(21, is_deleted = false)` although the record at offset 21 has length field
`0xFFFFFFFF`. (b) After `put(1, "b")` on a store constructed on that log the entry is
`(33, is_deleted = true)` although the record at offset 33 has length field 1. -/
theorem is_deleted_disagrees_with_record :
    removedInSession.store_ 1 = some ⟨21, false⟩ ∧
    fromLE ((removedInSession.file.drop 21).take 4) = kTombstone ∧
    (put demoHasher .ideal reopenedOnTombstone 1 [98]).2.store_ 1 = some ⟨33, true⟩ ∧
    fromLE (((put demoHasher .ideal reopenedOnTombstone 1 [98]).2.file.drop 33).take 4)
      = 1 := by
  refine ⟨?_, ?_, ?_, ?_⟩ <;> rfl

theorem doPutIndex_other (m : Store_T) (key : K) (off : Int) (value : Option V) (k : K)
    (hk : k ≠ key) : doPutIndex m key off value k = m k := by
  cases hm : m key with
  | none => simp [doPutIndex, hm, Store_T.assign, hk]
  | some e =>
    by_cases hlt : e.offset < off
    · simp [doPutIndex, hm, hlt, Store_T.assign, hk]
    · simp [doPutIndex, hm, hlt]

theorem afterBigPuts_other (k : K) (hk : k ≠ 0) (n : Nat) :
    (afterBigPuts n).store_ k = none := by
  induction n with
  | zero => rfl
  | succ n ih =>
    rw [afterBigPuts_succ, put_ideal_bigValue]
    simp only
    rw [doPutIndex_other _ _ _ _ _ hk, ih]

theorem put_new_key_wrapped (N : Nat) (hN : N = 524288) :
    (afterBigPuts N).file.length = 2147483648 ∧
    (put demoHasher .ideal (afterBigPuts N) 1 [98]).1 = Except.ok () ∧
    (put demoHasher .ideal (afterBigPuts N) 1 [98]).2.store_ 1
      = some ⟨-2147483640, false⟩ ∧
    (put demoHasher .ideal (afterBigPuts N) 1 [98]).2.file.length = 2147483661 := by
  have hlen : (afterBigPuts N).file.length = 2147483648 := by
    rw [afterBigPuts_file, serialize_replicate_bigRec_length]; omega
  have hput := put_ok demoHasher .ideal (afterBigPuts N) 1 [98] (by simp) rfl
  have hnone := afterBigPuts_other 1 (by decide) N
  have h32 : toInt32 ((2147483648 : Nat) : Int) + 8 = -2147483640 := by
    simp [toInt32]
  have hidx := doPutIndex_insert (afterBigPuts N).store_ 1
    (toInt32 ((afterBigPuts N).file.length : Int) + 8) (some [98]) hnone
  rw [hlen, h32] at hidx
  have hrec : (Rec.bytes demoHasher ⟨1, some [98]⟩).length = 13 := rfl
  rw [hput]
  refine ⟨hlen, rfl, ?_, ?_⟩
  · simp only [hlen, h32]
    exact hidx
  · simp only [List.length_append, hlen, hrec]

/-- C15 fails on the code once the log reaches 2 GiB. After 524288 calls `put(0, bigValue)` on a
fresh store (file of `2^31` bytes), `put(1, "b")` returns normally and gives key 1 the entry
with offset `-2147483640`, which is not a position in the file; the record itself starts at
byte `2^31`. -/
theorem index_offset_outside_file :
    (afterBigPuts 524288).file.length = 2147483648 ∧
    (put demoHasher .ideal (afterBigPuts 524288) 1 [98]).1 = Except.ok () ∧
    (put demoHasher .ideal (afterBigPuts 524288) 1 [98]).2.store_ 1
      = some ⟨-2147483640, false⟩ ∧
    (put demoHasher .ideal (afterBigPuts 524288) 1 [98]).2.file.length = 2147483661 :=
  put_new_key_wrapped 524288 rfl

theorem appendRecord_wrapped (N : Nat) (hN : N = 524288) :
    (afterBigPuts N).file.length = 2147483648 ∧
    appendRecord .ideal (afterBigPuts N) (make_checksum demoHasher 1 1 (some [98])) 1
        (some [98])
      = (Except.ok (-2147483640),
         { file := (afterBigPuts N).file
             ++ recordBytes (make_checksum demoHasher 1 1 (some [98])) 1 (some [98]),
           store_ := (afterBigPuts N).store_ }) ∧
    appendRecord .ideal (afterBigPuts N) (make_checksum demoHasher 0 kTombstone none) 0 none
      = (Except.ok (-2147483640),
         { file := (afterBigPuts N).file
             ++ recordBytes (make_checksum demoHasher 0 kTombstone none) 0 none,
           store_ := (afterBigPuts N).store_ }) := by
  have hlen : (afterBigPuts N).file.length = 2147483648 := by
    rw [afterBigPuts_file, serialize_replicate_bigRec_length]; omega
  have h32 : toInt32 ((2147483648 : Nat) : Int) + 8 = -2147483640 := by
    simp [toInt32]
  refine ⟨hlen, ?_, ?_⟩
  · rw [appendRecord_ok .ideal (afterBigPuts N) _ 1 (some [98]) rfl (by decide), hlen, h32]
  · rw [appendRecord_ok .ideal (afterBigPuts N) _ 0 none rfl (by decide), hlen, h32]

/-- C18 fails on the code at file size `2^31`. With the file at 2147483648 bytes (after 524288
calls `put(0, bigValue)`), `appendRecord` appends the record of `put(1, "b")`, and likewise the
tombstone of `remove(0)`, at byte offset 2147483648 and returns the value offset
`-2147483640` instead of `2147483656`. -/
theorem appendRecord_offset_wraps :
    (afterBigPuts 524288).file.length = 2147483648 ∧
    appendRecord .ideal (afterBigPuts 524288) (make_checksum demoHasher 1 1 (some [98])) 1
        (some [98])
      = (Except.ok (-2147483640),
         { file := (afterBigPuts 524288).file
             ++ recordBytes (make_checksum demoHasher 1 1 (some [98])) 1 (some [98]),
           store_ := (afterBigPuts 524288).store_ }) ∧
    appendRecord .ideal (afterBigPuts 524288) (make_checksum demoHasher 0 kTombstone none) 0
        none
      = (Except.ok (-2147483640),
         { file := (afterBigPuts 524288).file
             ++ recordBytes (make_checksum demoHasher 0 kTombstone none) 0 none,
           store_ := (afterBigPuts 524288).store_ }) :=
  appendRecord_wrapped 524288 rfl

end KVStore

namespace KVStore

theorem fourGiB_reads (N : Nat) (hN : N = 1048576) :
    getValueFromOffset 0 (put demoHasher .ideal (afterBigPuts N) 1 [98]).2.file 4294967304
      = some [98] ∧
    getValueFromOffset 0 (put demoHasher .ideal (afterBigPuts N) 1 [98]).2.file 8
      = some bigValue := by
  obtain ⟨n, rfl⟩ : ∃ n, N = n + 1 := ⟨N - 1, by omega⟩
  have hput := put_ok demoHasher .ideal (afterBigPuts (n + 1)) 1 [98] (by simp) rfl
  rw [hput]
  simp only [afterBigPuts_file]
  constructor
  · have h := getValueFromOffset_value 0 demoHasher
      (serialize demoHasher (List.replicate (n + 1) bigRec)) [] 1 [98] (by simp)
    rw [serialize_replicate_bigRec_length, List.append_nil] at h
    have hpos : (((n + 1) * 4096 + 8 : Nat) : Int) = 4294967304 := by omega
    rw [hpos] at h
    exact h
  · have h := getValueFromOffset_value 0 demoHasher []
      (serialize demoHasher (List.replicate n bigRec) ++ Rec.bytes demoHasher ⟨1, some [98]⟩)
      0 bigValue (by rw [bigValue_length]; omega)
    rw [List.replicate_succ, serialize_cons]
    simpa [bigRec] using h

theorem get_narrowed_wrapped (N : Nat) (hN : N = 1048576) :
    (create demoHasher (some (put demoHasher .ideal (afterBigPuts N) 1 [98]).2.file)).store_ 1
      = some ⟨4294967304, false⟩ ∧
    getValueFromOffset 0 (put demoHasher .ideal (afterBigPuts N) 1 [98]).2.file 4294967304
      = some [98] ∧
    get 0 (create demoHasher (some (put demoHasher .ideal (afterBigPuts N) 1 [98]).2.file)) 1
      = getValueFromOffset 0 (put demoHasher .ideal (afterBigPuts N) 1 [98]).2.file 8 ∧
    getValueFromOffset 0 (put demoHasher .ideal (afterBigPuts N) 1 [98]).2.file 8
      = some bigValue ∧
    bigValue ≠ [98] := by
  have h1 := get_after_reopen_wrapped N hN
  have h2 := fourGiB_reads N hN
  refine ⟨h1.2.2.2.1, h2.1, ?_, h2.2, h1.2.2.2.2.2⟩
  rw [h2.2]
  exact h1.2.2.2.2.1

/-- C19 fails on the code for offsets of `2^32` and more. On the store constructed on the log
left by 1048576 calls `put(0, bigValue)` and `put(1, "b")` (`2^32 + 13` bytes) the entry of
key 1 is `(4294967304, is_deleted = false)` and the record of `put(1, "b")` is read correctly
at that position; `get(1)` narrows the offset to the `uint32_t` 8 and reads the length and
value at file position 8, the first record's. -/
theorem get_reads_at_narrowed_offset :
    (create demoHasher
      (some (put demoHasher .ideal (afterBigPuts 1048576) 1 [98]).2.file)).store_ 1
      = some ⟨4294967304, false⟩ ∧
    getValueFromOffset 0 (put demoHasher .ideal (afterBigPuts 1048576) 1 [98]).2.file
      4294967304 = some [98] ∧
    get 0 (create demoHasher
      (some (put demoHasher .ideal (afterBigPuts 1048576) 1 [98]).2.file)) 1
      = getValueFromOffset 0 (put demoHasher .ideal (afterBigPuts 1048576) 1 [98]).2.file 8 ∧
    getValueFromOffset 0 (put demoHasher .ideal (afterBigPuts 1048576) 1 [98]).2.file 8
      = some bigValue ∧
    bigValue ≠ [98] :=
  get_narrowed_wrapped 1048576 rfl

theorem refModel_bigPutsThenRemove (n : Nat) : refModel (bigPutsThenRemove n) 0 = none := by
  simp [refModel, bigPutsThenRemove, List.foldl_append, refStep]

theorem run_bigPutsThenRemove (n : Nat) :
    run demoHasher (create demoHasher none) (bigPutsThenRemove n)
      = (remove demoHasher .ideal (afterBigPuts n) 0).2 := by
  simp only [run, bigPutsThenRemove, List.foldl_append, List.foldl_cons, List.foldl_nil, step,
    afterBigPuts]

theorem get_vs_refModel_wrapped (N : Nat) (hN : N = 524288) :
    refModel (bigPutsThenRemove N) 0 = none ∧
    get 0 (run demoHasher (create demoHasher none) (bigPutsThenRemove N)) 0
      = some bigValue := by
  refine ⟨refModel_bigPutsThenRemove N, ?_⟩
  rw [run_bigPutsThenRemove]
  exact (remove_then_get_wrapped N hN).2.2.2.2.2

/-- C12 fails on the code once the log reaches 2 GiB. In one session on a missing file, after
524288 calls `put(0, bigValue)` and then `remove(0)`, the reference map has no binding for
key 0 but `get(0)` returns `bigValue`. -/
theorem get_differs_from_reference_map :
    refModel (bigPutsThenRemove 524288) 0 = none ∧
    get 0 (run demoHasher (create demoHasher none) (bigPutsThenRemove 524288)) 0
      = some bigValue :=
  get_vs_refModel_wrapped 524288 rfl

end KVStore

namespace KVStore

/-! ## One session refines the reference map while the log is below 2 GiB -/

theorem get_of_refines (H : Hasher) (s : KVStore) (ref : K → Option V) (hr : Refines H s ref)
    (hsmall : s.file.length < 4294967296) (junk : Nat) (k : K) :
    get junk s k = ref k := by
  cases he : s.store_ k with
  | none => simp [get, he, hr.1 k he]
  | some e =>
    obtain ⟨hdel, pre, post, hwf, hfile, hoff⟩ := hr.2 k e he
    have hlen := congrArg List.length hfile
    simp only [List.length_append] at hlen
    have hu : ((toUInt32 e.offset : Nat) : Int) = ((pre.length + 8 : Nat) : Int) := by
      have h12 := Rec.bytes_length H ⟨k, ref k⟩ hwf
      have := (Rec.mk k (ref k)).size_pos
      rw [hoff]; unfold toUInt32; omega
    simp only [get, he, hdel, Bool.false_eq_true, if_false, hu]
    rw [hfile]
    cases hv : ref k with
    | none => exact getValueFromOffset_tombstone junk H pre post k
    | some v =>
      rw [hv] at hwf
      exact getValueFromOffset_value junk H pre post k v hwf

theorem refines_doPut (H : Hasher) (s : KVStore) (ref : K → Option V) (hr : Refines H s ref)
    (hsmall : s.file.length < 2147483648) (key : K) (value : Option V)
    (hwf : (Rec.mk key value).wf) (hpresent : value = none → s.store_ key ≠ none) :
    Refines H
      { file := s.file ++ Rec.bytes H ⟨key, value⟩,
        store_ := doPutIndex s.store_ key (toInt32 (s.file.length : Int) + 8) value }
      (fun k => if k = key then value else ref k) := by
  have h32 := toInt32_of_lt hsmall
  constructor
  · intro k hk
    dsimp only at hk ⊢
    by_cases hkk : k = key
    · subst hkk
      rw [doPutIndex_self] at hk
      cases hm : s.store_ k <;> simp [hm] at hk
    · simp only [doPutIndex_other _ _ _ _ _ hkk] at hk
      simp only [hkk, if_false]
      exact hr.1 k hk
  · intro k e hk
    dsimp only at hk ⊢
    by_cases hkk : k = key
    · subst hkk
      simp only [if_true]
      rw [doPutIndex_self] at hk
      cases hm : s.store_ k with
      | none =>
        simp only [hm, Option.some.injEq] at hk
        have hv : value ≠ none := fun h => hpresent h hm
        refine ⟨?_, s.file, [], hwf, by simp, ?_⟩
        · rw [← hk]
          cases value with
          | none => exact absurd rfl hv
          | some v => rfl
        · rw [← hk, h32]
      | some e0 =>
        obtain ⟨hdel, pre, post, hwf0, hfile, hoff⟩ := hr.2 k e0 hm
        have hlen := congrArg List.length hfile
        simp only [List.length_append] at hlen
        have h12 := Rec.bytes_length H ⟨k, ref k⟩ hwf0
        have hpos := (Rec.mk k (ref k)).size_pos
        have hlt : e0.offset < toInt32 (s.file.length : Int) + 8 := by
          rw [h32, hoff]; omega
        simp only [hm, hlt, if_true, Option.some.injEq] at hk
        refine ⟨by rw [← hk]; exact hdel, s.file, [], hwf, by simp, ?_⟩
        rw [← hk, h32]
    · simp only [doPutIndex_other _ _ _ _ _ hkk] at hk
      simp only [hkk, if_false]
      obtain ⟨hdel, pre, post, hwf0, hfile, hoff⟩ := hr.2 k e hk
      exact ⟨hdel, pre, post ++ Rec.bytes H ⟨key, value⟩, hwf0, by rw [hfile]; simp, hoff⟩

theorem refines_step (H : Hasher) (s : KVStore) (ref : K → Option V) (hr : Refines H s ref)
    (hsmall : s.file.length < 2147483648) (c : Call) (henv : c.env.wf)
    (hok : c.result H s = Except.ok ()) :
    Refines H (step H s c) (refStep ref c) := by
  cases c with
  | put env key value =>
    obtain ⟨hv, hp⟩ := put_of_ok H env henv s key value hok
    simp only [step, hp, refStep]
    exact refines_doPut H s ref hr hsmall key (some value) hv (by simp)
  | remove env key =>
    by_cases hex : exists_ s key = true
    · simp only [step, remove_of_ok H env henv s key hex hok, refStep]
      refine refines_doPut H s ref hr hsmall key none trivial ?_
      intro _ hnone
      simp [exists_, hnone] at hex
    · have hex' : exists_ s key = false := by simpa using hex
      simp only [step, remove_noop H env s key hex', refStep]
      have hnone : s.store_ key = none := by
        cases hm : s.store_ key with
        | none => rfl
        | some e =>
          have := (hr.2 key e hm).1
          simp [exists_, hm, this] at hex'
      have href : (fun k => if k = key then none else ref k) = ref := by
        funext k
        by_cases hk : k = key
        · simp only [hk, if_true]; exact (hr.1 key hnone).symm
        · simp only [hk, if_false]
      rw [href]
      exact hr

theorem refines_run (H : Hasher) (calls : List Call) (henv : ∀ c ∈ calls, c.env.wf) :
    ∀ (s : KVStore) (ref : K → Option V), Refines H s ref → allOk H s calls →
      (run H s calls).file.length < 2147483648 →
      Refines H (run H s calls) (calls.foldl refStep ref) := by
  induction calls with
  | nil => intro s ref hr _ _; exact hr
  | cons c cs ih =>
    intro s ref hr hok hsmall
    have h1 : (step H s c).file.length ≤ (run H s (c :: cs)).file.length :=
      run_file_mono H cs (step H s c)
    have h2 := step_file_mono H s c
    exact ih (fun x hx => henv x (List.mem_cons_of_mem c hx)) (step H s c) (refStep ref c)
      (refines_step H s ref hr (by omega) c (henv c (List.mem_cons_self c cs)) hok.1)
      hok.2 hsmall

/-- While the log stays below `2^31` bytes, one session on a missing file in which every call
returns normally answers every `get` like the reference map. -/
theorem session_refines_reference_map_of_small (H : Hasher) (calls : List Call)
    (henv : ∀ c ∈ calls, c.env.wf) (hok : allOk H (create H none) calls)
    (hsmall : (run H (create H none) calls).file.length < 2147483648) (junk : Nat) (k : K) :
    get junk (run H (create H none) calls) k = refModel calls k := by
  have h0 : Refines H (create H none) (fun _ => none) :=
    ⟨fun _ _ => rfl, fun k e h => by simp [create, restore, Store_T.empty] at h⟩
  exact get_of_refines H _ _ (refines_run H calls henv _ _ h0 hok hsmall) (by omega) junk k

end KVStore

namespace KVStore

/-! ## The last `put` of a key survives reopening while the log is below 4 GiB -/

theorem step_ok_record (H : Hasher) (s : KVStore) (c : Call) (henv : c.env.wf)
    (hok : c.result H s = Except.ok ()) :
    (step H s c).file = s.file ∨
    ∃ r : Rec, r.wf ∧ r.key = c.key ∧ (step H s c).file = s.file ++ r.bytes H := by
  cases c with
  | put env key value =>
    obtain ⟨hv, hp⟩ := put_of_ok H env henv s key value hok
    right
    exact ⟨⟨key, some value⟩, hv, rfl, by simp only [step, hp]⟩
  | remove env key =>
    by_cases hex : exists_ s key = true
    · right
      exact ⟨⟨key, none⟩, trivial, rfl,
        by simp only [step, remove_of_ok H env henv s key hex hok]⟩
    · left
      simp only [step, remove_noop H env s key (by simpa using hex)]

theorem life_serialize (H : Hasher) (P : K → Prop) (events : List Event) :
    ∀ (s : KVStore) (rs : List Rec), s.file = serialize H rs → lifeOk H s events →
      keysSatisfy P events →
      ∃ rs' : List Rec, (∀ r ∈ rs', r.wf) ∧ (∀ r ∈ rs', P r.key) ∧
        (life H s events).file = serialize H (rs ++ rs') := by
  induction events with
  | nil =>
    intro s rs hs _ _
    exact ⟨[], by simp, by simp, by simpa [life] using hs⟩
  | cons ev evs ih =>
    intro s rs hs hok hkeys
    cases ev with
    | reopen =>
      exact ih (create H (some s.file)) rs hs hok hkeys
    | call c =>
      obtain ⟨henv, hc, hrest⟩ := hok
      obtain ⟨hPc, hkeys'⟩ := hkeys
      rcases step_ok_record H s c henv hc with h | ⟨r, hr, hkey, h⟩
      · exact ih (step H s c) rs (by rw [h, hs]) hrest hkeys'
      · obtain ⟨rs', hwf', hP', hfile⟩ := ih (step H s c) (rs ++ [r])
          (by rw [h, hs, serialize_append]; simp [serialize]) hrest hkeys'
        refine ⟨r :: rs', ?_, ?_, ?_⟩
        · intro x hx
          rcases List.mem_cons.mp hx with hx | hx
          · rw [hx]; exact hr
          · exact hwf' x hx
        · intro x hx
          rcases List.mem_cons.mp hx with hx | hx
          · rw [hx, hkey]; exact hPc
          · exact hP' x hx
        · have : life H s (Event.call c :: evs) = life H (step H s c) evs := rfl
          rw [this, hfile, List.append_assoc, List.singleton_append]

theorem life_append (H : Hasher) (s : KVStore) (es fs : List Event) :
    life H s (es ++ fs) = life H (life H s es) fs := by
  simp [life, List.foldl_append]

theorem lifeOk_append (H : Hasher) (es fs : List Event) :
    ∀ s : KVStore, lifeOk H s (es ++ fs) → lifeOk H s es ∧ lifeOk H (life H s es) fs := by
  induction es with
  | nil => intro s h; exact ⟨trivial, h⟩
  | cons e es ih =>
    intro s h
    cases e with
    | reopen =>
      have := ih (create H (some s.file)) h
      exact ⟨this.1, this.2⟩
    | call c =>
      obtain ⟨h1, h2, h3⟩ := h
      have := ih (step H s c) h3
      exact ⟨⟨h1, h2, this.1⟩, this.2⟩

theorem replayFrom_append (H : Hasher) (xs ys : List Rec) (hwf : ∀ x ∈ xs, x.wf) :
    ∀ (p : Nat) (m : Store_T),
      replayFrom p m (xs ++ ys)
        = replayFrom (p + (serialize H xs).length) (replayFrom p m xs) ys := by
  induction xs with
  | nil => intro p m; simp [replayFrom, serialize]
  | cons x xs ih =>
    intro p m
    have hx := Rec.bytes_length H x (hwf x (List.mem_cons_self x xs))
    have harith : p + x.size + (serialize H xs).length
        = p + (serialize H (x :: xs)).length := by
      rw [serialize_cons, List.length_append, hx]; omega
    rw [List.cons_append, replayFrom, replayFrom,
      ih (fun y hy => hwf y (List.mem_cons_of_mem x hy)), harith]

end KVStore

namespace KVStore

theorem get_last_record (H : Hasher) (rs1 rs2 : List Rec) (k : K) (v : V)
    (hwf1 : ∀ r ∈ rs1, r.wf) (hwf2 : ∀ r ∈ rs2, r.wf) (hv : v.length ≤ 4096)
    (hkeys : ∀ r ∈ rs2, r.key ≠ k)
    (hsmall : (serialize H ((rs1 ++ [⟨k, some v⟩]) ++ rs2)).length < 4294967296)
    (junk : Nat) :
    get junk (create H (some (serialize H ((rs1 ++ [⟨k, some v⟩]) ++ rs2)))) k = some v := by
  have hwf1' : ∀ x ∈ rs1 ++ [(⟨k, some v⟩ : Rec)], x.wf := by
    intro x hx
    rcases List.mem_append.mp hx with h | h
    · exact hwf1 x h
    · rw [List.mem_singleton.mp h]; exact hv
  have hwf : ∀ x ∈ (rs1 ++ [(⟨k, some v⟩ : Rec)]) ++ rs2, x.wf := by
    intro x hx
    rcases List.mem_append.mp hx with h | h
    · exact hwf1' x h
    · exact hwf2 x h
  have hidx : replay ((rs1 ++ [(⟨k, some v⟩ : Rec)]) ++ rs2) k
      = some ⟨(((serialize H rs1).length : Nat) : Int) + 8, false⟩ := by
    unfold replay
    rw [replayFrom_append H _ rs2 hwf1', replayFrom_of_not_mem k rs2 hkeys,
      replayFrom_append_single H ⟨k, some v⟩ rs1 hwf1]
    simp [Store_T.assign]
  have hfile : serialize H ((rs1 ++ [(⟨k, some v⟩ : Rec)]) ++ rs2)
      = serialize H rs1 ++ (Rec.bytes H ⟨k, some v⟩ ++ serialize H rs2) := by
    simp [serialize]
  have hlen : (serialize H rs1).length
      + ((Rec.bytes H ⟨k, some v⟩).length + (serialize H rs2).length) < 4294967296 := by
    rw [hfile] at hsmall
    simpa only [List.length_append] using hsmall
  have hu : ((toUInt32 ((((serialize H rs1).length : Nat) : Int) + 8) : Nat) : Int)
      = (((serialize H rs1).length + 8 : Nat) : Int) := by
    have h12 := Rec.bytes_length H ⟨k, some v⟩ hv
    have hpos := (Rec.mk k (some v)).size_pos
    unfold toUInt32; omega
  simp only [create, restore_serialize H _ hwf, get, hidx, Bool.false_eq_true, if_false, hu]
  rw [hfile]
  exact getValueFromOffset_value junk H _ _ k v hv

theorem keysSatisfy_true (events : List Event) : keysSatisfy (fun _ => True) events := by
  induction events with
  | nil => trivial
  | cons e es ih =>
    cases e with
    | reopen => exact ih
    | call c => exact ⟨trivial, ih⟩

/-- While the log stays below `2^32` bytes: starting from a missing file, if every call returns
normally and no event after `put(k, v)` operates on `k`, then `get(k)` on a store constructed on
the resulting file returns `v`. -/
theorem last_put_survives_reopen_of_small (H : Hasher) (before after : List Event) (env : Env)
    (k : K) (v : V) (junk : Nat)
    (hok : lifeOk H (create H none) (before ++ Event.call (.put env k v) :: after))
    (hafter : keysSatisfy (fun key => key ≠ k) after)
    (hsmall : (life H (create H none)
      (before ++ Event.call (.put env k v) :: after)).file.length < 4294967296) :
    get junk (create H (some (life H (create H none)
      (before ++ Event.call (.put env k v) :: after)).file)) k = some v := by
  obtain ⟨hok1, hok2⟩ := lifeOk_append H before _ (create H none) hok
  obtain ⟨henv, hput, hok3⟩ := hok2
  have hall := keysSatisfy_true before
  obtain ⟨rs1, hwf1, _, hfile1⟩ := life_serialize H (fun _ => True) before (create H none) []
    rfl hok1 hall
  rw [List.nil_append] at hfile1
  obtain ⟨hv, hp⟩ := put_of_ok H env henv _ k v hput
  have hfile2 : (step H (life H (create H none) before) (.put env k v)).file
      = serialize H (rs1 ++ [⟨k, some v⟩]) := by
    simp only [step, hp, hfile1, serialize_append]
    simp [serialize]
  obtain ⟨rs2, hwf2, hkeys2, hfile3⟩ := life_serialize H (fun key => key ≠ k) after _ _
    hfile2 hok3 hafter
  have hlife : life H (create H none) (before ++ Event.call (.put env k v) :: after)
      = life H (step H (life H (create H none) before) (.put env k v)) after := by
    rw [life_append]; rfl
  rw [hlife] at hsmall ⊢
  rw [hfile3] at hsmall ⊢
  exact get_last_record H rs1 rs2 k v hwf1 hwf2 hv hkeys2 hsmall junk

end KVStore
